import Mathlib

/-! POCSAG decoder (`pocsag.c`): embedding and verified properties.

The first part of the file holds the definitions: a shallow embedding of the C functions
(32-bit unsigned values are natural numbers, reduced modulo `2^32` where a shift can
overflow; `int` values are integers) together with the specification-side notions the
theorems refer to. The second part holds the lemmas and theorems.
-/

/-! # BCH(31,21) codec of `pocsag.c` -/

/-- Loop of `hamming_weight` with `n` iterations left: `c += data & 1; data >>= 1`
while `data` is not zero. -/
def hamming_weight_loop : Nat → Nat → Nat → Nat
  | 0, _, c => c
  | n + 1, data, c =>
    if data ≠ 0 then hamming_weight_loop n (data >>> 1) (c + (data &&& 1)) else c

/-- Model of `hamming_weight(data)`: the loop runs for `i = 0 .. 31` while `data` is not
zero. -/
def hamming_weight (data : Nat) : Nat := hamming_weight_loop 32 data 0

def BCH_POLY : Nat := 0x769

def BCH_N : Nat := 31

def BCH_K : Nat := 21

/-- Model of `even_parity(x)` on a `uint32_t`: folds the word down to a nibble and looks the
nibble up in the table `0x6996`; the result is 1 when `x` has an odd number of set bits. -/
def even_parity (x : Nat) : Nat :=
  let x := x ^^^ (x >>> 16)
  let x := x ^^^ (x >>> 8)
  let x := x ^^^ (x >>> 4)
  let x := x &&& 0xf
  (0x6996 >>> x) &&& 1

/-- The `for(; n > 0; mask >>= 1, coeff >>= 1, n--)` loop of `bch_syndrome`. -/
def bch_syndrome_loop : Nat → Nat → Nat → Nat → Nat
  | 0, shreg, _, _ => shreg
  | n + 1, shreg, mask, coeff =>
    bch_syndrome_loop n (if shreg &&& mask ≠ 0 then shreg ^^^ coeff else shreg)
      (mask >>> 1) (coeff >>> 1)

/-- Model of `bch_syndrome(data)` for a `uint32_t` argument: the parity bit is dropped,
the division loop runs `BCH_K` times, and bit `BCH_N - BCH_K` is set when `even_parity`
reports odd parity. -/
def bch_syndrome (data : Nat) : Nat :=
  let shreg := data >>> 1
  let shreg := bch_syndrome_loop BCH_K shreg (1 <<< (BCH_N - 1)) (BCH_POLY <<< (BCH_K - 1))
  if even_parity data ≠ 0 then shreg ||| (1 <<< (BCH_N - BCH_K)) else shreg

/-- First loop of `bch_fix`: single-bit flips `i, i+1, ...`, `fuel` of them. -/
def bch_fix_loop1 (data : Nat) : Nat → Nat → Option Nat
  | 0, _ => none
  | fuel + 1, i =>
    let t := data ^^^ (1 <<< i)
    if bch_syndrome t = 0 then some t else bch_fix_loop1 data fuel (i + 1)

/-- Inner loop of the second loop of `bch_fix`: `for (j=...; j<32; j++)` for a fixed `i`. -/
def bch_fix_inner (data i : Nat) : Nat → Nat → Option Nat
  | 0, _ => none
  | fuel + 1, j =>
    let t := data ^^^ ((1 <<< i) ||| (1 <<< j))
    if bch_syndrome t = 0 then some t else bch_fix_inner data i fuel (j + 1)

/-- Second loop of `bch_fix`: `for (i=...; i<32; i++) for (j=i+1; j<32; j++)`. -/
def bch_fix_loop2 (data : Nat) : Nat → Nat → Option Nat
  | 0, _ => none
  | fuel + 1, i =>
    match bch_fix_inner data i (32 - (i + 1)) (i + 1) with
    | some t => some t
    | none => bch_fix_loop2 data fuel (i + 1)

/-- Model of `bch_fix(data)`: the first single-bit flip with zero syndrome, else the first
two-bit flip with zero syndrome, else `data`; `1<<i` is the 32-bit pattern with only bit
`i` set. -/
def bch_fix (data : Nat) : Nat :=
  match bch_fix_loop1 data 32 0 with
  | some t => t
  | none =>
    match bch_fix_loop2 data 32 0 with
    | some t => t
    | none => data

/-! ## Polynomials over GF(2) as bit patterns (specification side) -/

/-- Product of the GF(2) polynomials with coefficient bit patterns `q` and `g`
(carry-less multiplication): the XOR of `g * x^i` over the set bits `i` of `q`. -/
def gf2_mul (q g : Nat) : Nat :=
  if q = 0 then 0
  else (if q % 2 = 1 then g else 0) ^^^ gf2_mul (q / 2) (2 * g)
termination_by q
decreasing_by omega

/-- The polynomial `g` divides the polynomial `v` over GF(2): `v = q * g` for some `q`. -/
def gf2_divides (g v : Nat) : Prop := ∃ q, gf2_mul q g = v

/-- Number of set bits among bits 0..31 of `w`. -/
def popcount32 (w : Nat) : Nat := (List.range 32).countP (fun i => w.testBit i)

/-- The remainder part of the syndrome: the division loop run on `w >> 1`. -/
def synd_core (w : Nat) : Nat :=
  bch_syndrome_loop BCH_K (w >>> 1) (1 <<< (BCH_N - 1)) (BCH_POLY <<< (BCH_K - 1))

/-- One folding step `x ^= x >> k` of `even_parity`. -/
def xfold (k x : Nat) : Nat := x ^^^ (x >>> k)

/-- The remainder part of the syndrome, as a function of the 31-bit block. -/
def bch_rem (v : Nat) : Nat :=
  bch_syndrome_loop BCH_K v (1 <<< (BCH_N - 1)) (BCH_POLY <<< (BCH_K - 1))

/-- XOR of a predicate over a list of positions. -/
def xor_all (p : Nat → Bool) : List Nat → Bool
  | [] => false
  | i :: l => xor (p i) (xor_all p l)

/-- Order in which the folding steps of `even_parity` combine the 32 bits. -/
def parity_order : List Nat :=
  [0, 16, 8, 24, 4, 20, 12, 28, 1, 17, 9, 25, 5, 21, 13, 29,
   2, 18, 10, 26, 6, 22, 14, 30, 3, 19, 11, 27, 7, 23, 15, 31]

/-! ## Minimum distance: no non-zero word of weight at most four is a codeword -/

/-- Remainders `synd_core (2^i)` of the 32 single-bit words. -/
def core_tab : List Nat :=
  [0, 1, 2, 4, 8, 16, 32, 64, 128, 256, 512, 873, 443, 886, 389, 778, 381, 762, 669, 595,
   975, 247, 494, 988, 209, 418, 836, 481, 962, 237, 474, 948]

/-- No element of the list cancels `x`. -/
def noHit (x : Nat) : List Nat → Bool
  | [] => true
  | y :: ys => (x ^^^ y != 0) && noHit x ys

/-- No two elements of the list (taken in order) cancel `x`. -/
def chk2 (x : Nat) : List Nat → Bool
  | [] => true
  | y :: ys => noHit (x ^^^ y) ys && chk2 x ys

/-- No three elements of the list (taken in order) cancel `x`. -/
def chk3 (x : Nat) : List Nat → Bool
  | [] => true
  | y :: ys => chk2 (x ^^^ y) ys && chk3 x ys

/-- No four elements of the list (taken in order) XOR to zero. -/
def chk4 : List Nat → Bool
  | [] => true
  | y :: ys => chk3 y ys && chk4 ys

/-! ## The systematic encoder (specification side) -/

/-- Schoolbook long division over GF(2) by a generator `g` of degree `dg`: for quotient
positions `i-1, ..., 0`, cancel bit `i-1+dg` of `v` with `g * x^(i-1)`. -/
def gf2_mod_loop (g dg : Nat) : Nat → Nat → Nat
  | 0, v => v
  | i + 1, v => gf2_mod_loop g dg i (if v.testBit (i + dg) then v ^^^ (g <<< i) else v)

/-- Remainder of a polynomial of degree at most 30 modulo the generator `0x769`. -/
def gf2_mod_bch (v : Nat) : Nat := gf2_mod_loop BCH_POLY 10 21 v

/-- Systematic encoding of a 21-bit payload: payload in bits 31..11, the remainder of
`p(x) * x^10` modulo the generator in bits 10..1, even-parity bit in bit 0. -/
def bch_encode (p : Nat) : Nat :=
  let u := (p <<< 11) ||| (gf2_mod_bch (p <<< 10) <<< 1)
  u ||| (popcount32 u % 2)

/-! # Text assembler -/

def POCSAG_TXT_LEN : Nat := 256

/-- Model of `struct pocsag_txt`: `bits` is a `uint32_t`, `nb` and `nc` are `int`, `buf` is the
array `char buf[POCSAG_TXT_LEN]`. -/
structure pocsag_txt where
  bits : Nat
  nb : Int
  nc : Int
  buf : List Nat
  deriving DecidableEq, Repr

/-- Model of `pocsag_txt_init`: every field is overwritten, so the result does not depend on the
struct passed in. -/
def pocsag_txt_init : pocsag_txt :=
  { bits := 0, nb := 0, nc := 0, buf := List.replicate POCSAG_TXT_LEN 0 }

/-- The bit shuffle applied to the 7-bit symbol `c` before it is stored. -/
def pocsag_txt_rev (c : Nat) : Nat :=
  ((c &&& 0x01) <<< 6) |||
  ((c &&& 0x02) <<< 4) |||
  ((c &&& 0x04) <<< 2) |||
   (c &&& 0x08)        |||
  ((c &&& 0x10) >>> 2) |||
  ((c &&& 0x20) >>> 4) |||
  ((c &&& 0x40) >>> 6)

/-- The store `pt->buf[idx] = v`. The source has no bounds check: with `idx` outside
`0 .. POCSAG_TXT_LEN-1` the C statement writes outside the array, which is undefined
behaviour, and the program has no defined state from then on. This total model does not
follow the program there: it leaves `buf` as it is and goes on (the caller still advances
`nc`), so that the result of a call can be stated for every input state. It agrees with
the C program exactly on the calls whose stores are all in range; `pocsag_run_checked`
is the run restricted to those calls, and the statements about every reachable state are
made over it. -/
def pocsag_txt_store (buf : List Nat) (idx : Int) (v : Nat) : List Nat :=
  if 0 ≤ idx ∧ idx < POCSAG_TXT_LEN then buf.set idx.toNat v else buf

/-- The loop `while (pt->nb >= 7) { ... }` of `pocsag_txt_feed`; each iteration lowers `nb`
by 7, so `nb.toNat` iterations always suffice. -/
def pocsag_txt_feed_loop : Nat → pocsag_txt → pocsag_txt
  | 0, pt => pt
  | fuel + 1, pt =>
    if pt.nb ≥ 7 then
      let c := (pt.bits >>> (pt.nb - 7).toNat) &&& 0x7f
      pocsag_txt_feed_loop fuel
        { pt with buf := pocsag_txt_store pt.buf pt.nc (pocsag_txt_rev c),
                  nc := pt.nc + 1,
                  nb := pt.nb - 7 }
    else pt

/-- Model of `pocsag_txt_feed(pt, d)`: append 20 bits to the accumulator (a `uint32_t`),
then read as many characters as possible. -/
def pocsag_txt_feed (pt : pocsag_txt) (d : Nat) : pocsag_txt :=
  let pt := { pt with bits := ((pt.bits <<< 20) % 2 ^ 32) ||| d, nb := pt.nb + 20 }
  pocsag_txt_feed_loop pt.nb.toNat pt

/-! # Sync tracker and batch demultiplexer -/

def POCSAG_SYNC : Nat := 0x7cd215d8

def POCSAG_IDLE : Nat := 0x7a89c197

def SYNC_MAX : Int := 10

def SYNC_DEC : Int := 1

def SYNC_INC : Int := 2

/-- Model of `struct pocsag`: `cw` is a `uint32_t`, the other scalar fields are `int`. -/
structure pocsag where
  b : Int
  sync : Int
  cw : Nat
  cw_bits : Int
  cw_num : Int
  txt_active : Int
  txt : pocsag_txt
  deriving DecidableEq, Repr

/-- Model of `pocsag_init`: the struct is zeroed and the text assembler initialised. -/
def pocsag_init : pocsag :=
  { b := 0, sync := 0, cw := 0, cw_bits := 0, cw_num := 0, txt_active := 0,
    txt := pocsag_txt_init }

/-- Classification of the (possibly corrected) codeword `cw` with final syndrome
`syndrome`: the `if (cw == POCSAG_IDLE) ... else ...` chain of `pocsag_rx_bit`. -/
def pocsag_rx_classify (ps : pocsag) (cw syndrome : Nat) : pocsag :=
  if cw = POCSAG_IDLE then
    if syndrome = 0 then { ps with txt_active := 0 } else ps
  else if cw = POCSAG_SYNC then ps
  else if cw &&& (1 <<< 31) ≠ 0 then
    let d := (cw >>> 11) &&& 0xfffff
    if ps.txt_active ≠ 0 then { ps with txt := pocsag_txt_feed ps.txt d } else ps
  else
    if syndrome = 0 then { ps with txt := pocsag_txt_init, txt_active := 1 }
    else if ps.txt_active ≠ 0 then
      let d := (cw >>> 11) &&& 0xfffff
      { ps with txt := pocsag_txt_feed ps.txt d }
    else ps

/-- The part of `pocsag_rx_bit` from the `SYNC tracking` comment to the end, with the local
variables `cw` (the possibly corrected codeword) and `syndrome` (its syndrome) as
arguments: track sync, classify the codeword, advance `cw_num`. -/
def pocsag_rx_track (ps : pocsag) (cw syndrome : Nat) : pocsag :=
  if syndrome ≠ 0 ∧ ps.sync - SYNC_DEC ≤ 0 then
    { ps with sync := 0 }
  else
    let ps :=
      if syndrome ≠ 0 then { ps with sync := ps.sync - SYNC_DEC }
      else if ps.sync + SYNC_INC > SYNC_MAX then { ps with sync := SYNC_MAX }
      else { ps with sync := ps.sync + SYNC_INC }
    if ps.cw_num = -1 then
      { ps with cw_num := ps.cw_num + 1 }
    else
      let ps := pocsag_rx_classify ps cw syndrome
      let ps := { ps with cw_num := ps.cw_num + 1 }
      if ps.cw_num = 16 then { ps with cw_num := -1 } else ps

/-- The part of `pocsag_rx_bit` that runs at a codeword boundary, after `cw_bits` has been
reset: take the codeword in `ps.cw`, compute its syndrome, run `bch_fix` when the syndrome
is not zero, then continue with sync tracking and classification. -/
def pocsag_rx_cw (ps : pocsag) : pocsag :=
  let cw := ps.cw
  let syndrome := bch_syndrome cw
  if syndrome ≠ 0 then
    pocsag_rx_track ps (bch_fix ps.cw) (bch_syndrome (bch_fix ps.cw))
  else
    pocsag_rx_track ps cw syndrome

/-- Model of `pocsag_rx_bit(ps, bit)`; the `printf` trace output is not modelled, and the
bit counter `b` (used for the trace only) is an unbounded integer. -/
def pocsag_rx_bit (ps : pocsag) (bit : Nat) : pocsag :=
  let ps := { ps with cw := ((ps.cw <<< 1) % 2 ^ 32) ||| bit, b := ps.b + 1 }
  if ps.sync = 0 then
    if ps.cw ≠ POCSAG_SYNC then ps
    else { ps with sync := SYNC_MAX, cw := 0, cw_bits := 0, cw_num := 0 }
  else
    let ps := { ps with cw_bits := ps.cw_bits + 1 }
    if ps.cw_bits ≠ 32 then ps
    else pocsag_rx_cw { ps with cw_bits := 0 }

/-- The decoder fed a sequence of bits, as the `while` loop of `main` does. -/
def pocsag_run (ps : pocsag) (bits : List Nat) : pocsag := bits.foldl pocsag_rx_bit ps

/-- Bits `k-1, ..., 0` of `w`, most significant first. -/
def word_bits_from (w : Nat) : Nat → List Nat
  | 0 => []
  | k + 1 => ((w >>> k) &&& 1) :: word_bits_from w k

/-- The 32 bits of a codeword in transmission order (most significant bit first). -/
def word_bits (w : Nat) : List Nat := word_bits_from w 32

/-- A 7-bit value with its bit positions reversed (bit 0 ↔ 6, 1 ↔ 5, 2 ↔ 4, 3 fixed). -/
def bitrev7 (c : Nat) : Nat :=
  ((List.range 7).map (fun i => if c.testBit i then 2 ^ (6 - i) else 0)).sum

/-- Syndrome of the codeword after the optional `bch_fix` step of `pocsag_rx_bit`. -/
def final_syndrome (cw : Nat) : Nat :=
  if bch_syndrome cw ≠ 0 then bch_syndrome (bch_fix cw) else bch_syndrome cw

/-- The codeword after the optional `bch_fix` step of `pocsag_rx_bit`. -/
def fixed_cw (cw : Nat) : Nat :=
  if bch_syndrome cw ≠ 0 then bch_fix cw else cw

/-- Successor of a batch position: `-1 → 0`, `p → p + 1` for `0 ≤ p < 15`, `15 → -1`. -/
def cw_num_next (p : Int) : Int := if p = 15 then -1 else p + 1

/-- Value of the bit string formed by concatenating 20-bit fragments, first fragment most
significant. -/
def stream_value (ds : List Nat) : Nat := ds.foldl (fun v d => v * 2 ^ 20 + d) 0

/-- Bits `7k .. 7k+6` (counted from the most significant end) of the `20 * ds.length`-bit
string of the fragments `ds`, as a 7-bit number. -/
def stream_group (ds : List Nat) (k : Nat) : Nat :=
  (stream_value ds / 2 ^ (20 * ds.length - 7 * (k + 1))) % 128

/-- Invariant of the text assembler after `N` bits of the stream with value `V`: `r` bits
are pending and are the low `r` bits of the accumulator, `c` characters are stored, and
each stored character is the bit reversal of its 7-bit group of the stream. -/
def txt_inv (N V : Nat) (q : pocsag_txt) (r c : Nat) : Prop :=
  q.nb = (r : Int) ∧ q.nc = (c : Int) ∧ r + 7 * c = N ∧ r ≤ 26 ∧
  q.bits % 2 ^ r = V % 2 ^ r ∧ q.buf.length = 256 ∧
  ∀ k, k < c → q.buf[k]? = some (bitrev7 ((V / 2 ^ (N - 7 * (k + 1))) % 128))

/-- A synced decoder at a codeword boundary consuming the 32 bits of the word `w`: the
state reached by `pocsag_rx_bit` after the last of these bits. -/
def pocsag_rx_word (ps : pocsag) (w : Nat) : pocsag :=
  pocsag_rx_cw { ps with cw := w, b := ps.b + 32, cw_bits := 0 }

/-- Clean codewords that follow a sync word: the address codeword `0`, then 90 message
codewords `0x899605E0`, with a sync word in every pre-batch slot. -/
def overflow_words : List Nat :=
  0 :: List.replicate 15 0x899605e0 ++
    (List.replicate 4 (POCSAG_SYNC :: List.replicate 16 0x899605e0)).flatten ++
    POCSAG_SYNC :: List.replicate 11 0x899605e0

/-! # The decoder with the unchecked store made explicit -/

/-- The character loop of `pocsag_txt_feed` with the store `pt->buf[pt->nc++] = ...`
checked against the bounds of `buf`: `none` when a store falls outside the array, where
the behaviour of the C program is undefined; otherwise the state the loop ends in. -/
def pocsag_txt_feed_loop_checked : Nat → pocsag_txt → Option pocsag_txt
  | 0, pt => some pt
  | fuel + 1, pt =>
    if pt.nb ≥ 7 then
      if 0 ≤ pt.nc ∧ pt.nc < POCSAG_TXT_LEN then
        let c := (pt.bits >>> (pt.nb - 7).toNat) &&& 0x7f
        pocsag_txt_feed_loop_checked fuel
          { pt with buf := pt.buf.set pt.nc.toNat (pocsag_txt_rev c),
                    nc := pt.nc + 1,
                    nb := pt.nb - 7 }
      else none
    else some pt

/-- Checked form of `pocsag_txt_feed(pt, d)`: `none` when the call stores outside `buf`. -/
def pocsag_txt_feed_checked (pt : pocsag_txt) (d : Nat) : Option pocsag_txt :=
  let pt := { pt with bits := ((pt.bits <<< 20) % 2 ^ 32) ||| d, nb := pt.nb + 20 }
  pocsag_txt_feed_loop_checked pt.nb.toNat pt

/-- Checked form of `pocsag_rx_classify`: the same chain of branches, with
`pocsag_txt_feed_checked` in the two branches that feed the text assembler. -/
def pocsag_rx_classify_checked (ps : pocsag) (cw syndrome : Nat) : Option pocsag :=
  if cw = POCSAG_IDLE then
    if syndrome = 0 then some { ps with txt_active := 0 } else some ps
  else if cw = POCSAG_SYNC then some ps
  else if cw &&& (1 <<< 31) ≠ 0 then
    let d := (cw >>> 11) &&& 0xfffff
    if ps.txt_active ≠ 0 then
      (pocsag_txt_feed_checked ps.txt d).map (fun t => { ps with txt := t })
    else some ps
  else
    if syndrome = 0 then some { ps with txt := pocsag_txt_init, txt_active := 1 }
    else if ps.txt_active ≠ 0 then
      let d := (cw >>> 11) &&& 0xfffff
      (pocsag_txt_feed_checked ps.txt d).map (fun t => { ps with txt := t })
    else some ps

/-- Checked form of `pocsag_rx_track`. -/
def pocsag_rx_track_checked (ps : pocsag) (cw syndrome : Nat) : Option pocsag :=
  if syndrome ≠ 0 ∧ ps.sync - SYNC_DEC ≤ 0 then
    some { ps with sync := 0 }
  else
    let ps :=
      if syndrome ≠ 0 then { ps with sync := ps.sync - SYNC_DEC }
      else if ps.sync + SYNC_INC > SYNC_MAX then { ps with sync := SYNC_MAX }
      else { ps with sync := ps.sync + SYNC_INC }
    if ps.cw_num = -1 then
      some { ps with cw_num := ps.cw_num + 1 }
    else
      (pocsag_rx_classify_checked ps cw syndrome).map fun ps =>
        let ps := { ps with cw_num := ps.cw_num + 1 }
        if ps.cw_num = 16 then { ps with cw_num := -1 } else ps

/-- Checked form of `pocsag_rx_cw`. -/
def pocsag_rx_cw_checked (ps : pocsag) : Option pocsag :=
  let cw := ps.cw
  let syndrome := bch_syndrome cw
  if syndrome ≠ 0 then
    pocsag_rx_track_checked ps (bch_fix ps.cw) (bch_syndrome (bch_fix ps.cw))
  else
    pocsag_rx_track_checked ps cw syndrome

/-- Checked form of `pocsag_rx_bit(ps, bit)`: `none` when the call stores outside
`txt.buf`, otherwise the state after the call. -/
def pocsag_rx_bit_checked (ps : pocsag) (bit : Nat) : Option pocsag :=
  let ps := { ps with cw := ((ps.cw <<< 1) % 2 ^ 32) ||| bit, b := ps.b + 1 }
  if ps.sync = 0 then
    if ps.cw ≠ POCSAG_SYNC then some ps
    else some { ps with sync := SYNC_MAX, cw := 0, cw_bits := 0, cw_num := 0 }
  else
    let ps := { ps with cw_bits := ps.cw_bits + 1 }
    if ps.cw_bits ≠ 32 then some ps
    else pocsag_rx_cw_checked { ps with cw_bits := 0 }

/-- The decoder fed a sequence of bits, as long as every store of the text assembler is
inside `txt.buf`: `some s` when no call stores outside the array and `s` is the state
reached, `none` from the first call that does (from there on the C program has undefined
behaviour). As in `pocsag_rx_bit`, the bit counter `b` is an unbounded integer. -/
def pocsag_run_checked (ps : pocsag) : List Nat → Option pocsag
  | [] => some ps
  | bit :: bits =>
    match pocsag_rx_bit_checked ps bit with
    | some ps' => pocsag_run_checked ps' bits
    | none => none

/-- The call `pocsag_rx_bit(ps, bit)` completes a codeword (`sync` not zero and `cw_bits`
becoming 32), at a batch position other than the pre-batch sentinel, whose corrected value
is a clean address codeword (zero syndrome, bit 31 clear, neither the idle nor the sync
constant): the one path through `pocsag_rx_bit` that starts a message session. -/
def clean_address_step (ps : pocsag) (bit : Nat) : Bool :=
  decide (ps.sync ≠ 0 ∧ ps.cw_bits + 1 = 32 ∧ ps.cw_num ≠ -1 ∧
    bch_syndrome (bch_fix (((ps.cw <<< 1) % 2 ^ 32) ||| bit)) = 0 ∧
    (bch_fix (((ps.cw <<< 1) % 2 ^ 32) ||| bit)).testBit 31 = false ∧
    bch_fix (((ps.cw <<< 1) % 2 ^ 32) ||| bit) ≠ POCSAG_IDLE ∧
    bch_fix (((ps.cw <<< 1) % 2 ^ 32) ||| bit) ≠ POCSAG_SYNC)

/-- No call of the run of `pocsag_rx_bit` over `bits` from `ps` is a clean address step. -/
def no_clean_address (ps : pocsag) : List Nat → Bool
  | [] => true
  | bit :: bits => !clean_address_step ps bit && no_clean_address (pocsag_rx_bit ps bit) bits

/-! ## Feeding bits -/

/-- The 32-bit shift register `cw = (cw << 1) | bit` run over a list of bits. -/
def shift_in (cw : Nat) (bits : List Nat) : Nat :=
  bits.foldl (fun c bit => ((c <<< 1) % 2 ^ 32) ||| bit) cw

/-! # Lemmas and theorems -/

/-! ## Linearity of the syndrome -/

theorem and_two_pow_ne_zero_iff (a p : Nat) : a &&& 2 ^ p ≠ 0 ↔ a.testBit p = true := by
  constructor
  · intro h
    by_contra hb
    apply h
    apply Nat.eq_of_testBit_eq
    intro i
    simp only [Nat.testBit_and, Nat.testBit_two_pow, Nat.zero_testBit]
    by_cases hpi : p = i
    · subst hpi; simp [hb]
    · simp [hpi]
  · intro hb h
    have := congrArg (fun x => x.testBit p) h
    simp [hb, Nat.testBit_two_pow] at this

theorem two_pow_shiftRight_one (p : Nat) : 2 ^ p >>> 1 = 0 ∨ ∃ r, 2 ^ p >>> 1 = 2 ^ r := by
  cases p with
  | zero => left; rfl
  | succ r => right; exact ⟨r, by rw [Nat.shiftRight_eq_div_pow]; simp [pow_succ]⟩

theorem bch_syndrome_loop_xor (n : Nat) : ∀ (a b m c : Nat), (m = 0 ∨ ∃ p, m = 2 ^ p) →
    bch_syndrome_loop n (a ^^^ b) m c = bch_syndrome_loop n a m c ^^^ bch_syndrome_loop n b m c := by
  induction n with
  | zero => intro a b m c _; rfl
  | succ n ih =>
    intro a b m c hm
    have hm1 : (m >>> 1 = 0 ∨ ∃ p, m >>> 1 = 2 ^ p) := by
      rcases hm with rfl | ⟨p, rfl⟩
      · left; simp
      · exact two_pow_shiftRight_one p
    simp only [bch_syndrome_loop]
    rw [← ih _ _ _ _ hm1]
    congr 1
    rcases hm with rfl | ⟨p, rfl⟩
    · simp
    · simp only [and_two_pow_ne_zero_iff, Nat.testBit_xor]
      cases ha : a.testBit p <;> cases hb : b.testBit p <;> simp
      · ac_rfl
      · ac_rfl
      · have h : a ^^^ c ^^^ (b ^^^ c) = a ^^^ b ^^^ (c ^^^ c) := by ac_rfl
        simpa using h.symm

theorem shiftRight_xor (a b k : Nat) : (a ^^^ b) >>> k = a >>> k ^^^ b >>> k := by
  apply Nat.eq_of_testBit_eq
  intro i
  simp

theorem and_xor_right (a b m : Nat) : (a ^^^ b) &&& m = (a &&& m) ^^^ (b &&& m) :=
  Nat.and_xor_distrib_right

theorem synd_core_xor (a b : Nat) : synd_core (a ^^^ b) = synd_core a ^^^ synd_core b := by
  unfold synd_core
  rw [shiftRight_xor]
  exact bch_syndrome_loop_xor _ _ _ _ _ (Or.inr ⟨30, by decide⟩)

theorem parity_table_xor : ∀ x < 16, ∀ y < 16,
    (0x6996 >>> (x ^^^ y)) &&& 1 = ((0x6996 >>> x) &&& 1) ^^^ ((0x6996 >>> y) &&& 1) := by
  decide

theorem xfold_xor (k a b : Nat) : xfold k (a ^^^ b) = xfold k a ^^^ xfold k b := by
  unfold xfold
  rw [shiftRight_xor]
  ac_rfl

theorem even_parity_eq (x : Nat) :
    even_parity x = (0x6996 >>> (xfold 4 (xfold 8 (xfold 16 x)) &&& 0xf)) &&& 1 := rfl

theorem even_parity_xor (a b : Nat) : even_parity (a ^^^ b) = even_parity a ^^^ even_parity b := by
  rw [even_parity_eq, even_parity_eq, even_parity_eq, xfold_xor, xfold_xor, xfold_xor,
    and_xor_right]
  exact parity_table_xor _ (Nat.and_lt_two_pow _ (by decide : 15 < 2 ^ 4)) _
    (Nat.and_lt_two_pow _ (by decide : 15 < 2 ^ 4))

theorem even_parity_le_one (a : Nat) : even_parity a ≤ 1 := by
  unfold even_parity
  simp only [Nat.and_one_is_mod]
  omega

theorem bch_syndrome_eq_zero_iff (w : Nat) :
    bch_syndrome w = 0 ↔ synd_core w = 0 ∧ even_parity w = 0 := by
  unfold bch_syndrome
  simp only []
  by_cases hp : even_parity w = 0
  · simp [hp, synd_core]
  · simp only [hp, ne_eq, not_false_eq_true, if_true, and_false, iff_false]
    intro h
    have := congrArg (fun x => x.testBit 10) h
    simp [BCH_N, BCH_K] at this
    exact absurd this.2 (by decide)

theorem bch_syndrome_xor_valid (w e : Nat) (hw : bch_syndrome w = 0) :
    bch_syndrome (w ^^^ e) = 0 ↔ bch_syndrome e = 0 := by
  rw [bch_syndrome_eq_zero_iff] at hw
  rw [bch_syndrome_eq_zero_iff, bch_syndrome_eq_zero_iff, synd_core_xor, even_parity_xor,
    hw.1, hw.2]
  simp

/-! ## Carry-less multiplication and divisibility by the generator -/

theorem gf2_mul_zero (g : Nat) : gf2_mul 0 g = 0 := by
  rw [gf2_mul]; simp

theorem gf2_mul_step (q g : Nat) :
    gf2_mul q g = (if q % 2 = 1 then g else 0) ^^^ gf2_mul (q / 2) (2 * g) := by
  by_cases hq : q = 0
  · subst hq; simp [gf2_mul_zero]
  · rw [gf2_mul]; simp [hq]

theorem gf2_mul_xor_aux (n : Nat) : ∀ a b g : Nat, a < 2 ^ n → b < 2 ^ n →
    gf2_mul (a ^^^ b) g = gf2_mul a g ^^^ gf2_mul b g := by
  induction n with
  | zero =>
    intro a b g ha hb
    have ha0 : a = 0 := by simpa using ha
    have hb0 : b = 0 := by simpa using hb
    subst ha0; subst hb0; simp [gf2_mul_zero]
  | succ n ih =>
    intro a b g ha hb
    rw [gf2_mul_step (a ^^^ b), gf2_mul_step a, gf2_mul_step b, Nat.xor_div_two,
      ih (a / 2) (b / 2) (2 * g) (by rw [pow_succ] at ha; omega) (by rw [pow_succ] at hb; omega)]
    have hbit : (if (a ^^^ b) % 2 = 1 then g else 0)
        = (if a % 2 = 1 then g else 0) ^^^ (if b % 2 = 1 then g else 0) := by
      rcases Nat.mod_two_eq_zero_or_one a with h1 | h1 <;>
        rcases Nat.mod_two_eq_zero_or_one b with h2 | h2 <;>
        simp [Nat.xor_mod_two_eq_one, h1, h2] <;> intro h <;> omega
    rw [hbit]
    ac_rfl

theorem gf2_mul_xor (a b g : Nat) : gf2_mul (a ^^^ b) g = gf2_mul a g ^^^ gf2_mul b g := by
  have ha : a < 2 ^ (a + b) :=
    lt_of_lt_of_le (Nat.lt_two_pow _) (Nat.pow_le_pow_right (by decide) (by omega))
  have hb : b < 2 ^ (a + b) :=
    lt_of_lt_of_le (Nat.lt_two_pow _) (Nat.pow_le_pow_right (by decide) (by omega))
  exact gf2_mul_xor_aux (a + b) a b g ha hb

theorem gf2_mul_two_pow (i : Nat) : ∀ g : Nat, gf2_mul (2 ^ i) g = g * 2 ^ i := by
  induction i with
  | zero => intro g; rw [gf2_mul_step]; simp [gf2_mul_zero]
  | succ i ih =>
    intro g
    rw [gf2_mul_step]
    have h1 : 2 ^ (i + 1) % 2 = 0 := by rw [pow_succ]; omega
    have h2 : 2 ^ (i + 1) / 2 = 2 ^ i := by rw [pow_succ]; omega
    rw [h1, h2, ih]
    simp [pow_succ]
    ring

theorem gf2_divides_zero (g : Nat) : gf2_divides g 0 := ⟨0, gf2_mul_zero g⟩

theorem gf2_divides_shift (g i : Nat) : gf2_divides g (g * 2 ^ i) := ⟨2 ^ i, gf2_mul_two_pow i g⟩

theorem gf2_divides_xor {g a b : Nat} (ha : gf2_divides g a) (hb : gf2_divides g b) :
    gf2_divides g (a ^^^ b) := by
  obtain ⟨p, rfl⟩ := ha
  obtain ⟨q, rfl⟩ := hb
  exact ⟨p ^^^ q, gf2_mul_xor p q g⟩

/-- The division loop only ever XORs shifted copies of the generator into the register. -/
theorem bch_syndrome_loop_divides (g n : Nat) : ∀ j s m : Nat, n ≤ j + 1 →
    ∃ d, gf2_divides g d ∧ bch_syndrome_loop n s m (g * 2 ^ j) = s ^^^ d := by
  induction n with
  | zero => intro j s m _; exact ⟨0, gf2_divides_zero g, by simp [bch_syndrome_loop]⟩
  | succ n ih =>
    intro j s m hj
    simp only [bch_syndrome_loop]
    cases n with
    | zero =>
      simp only [bch_syndrome_loop]
      by_cases hb : s &&& m ≠ 0
      · exact ⟨g * 2 ^ j, gf2_divides_shift g j, by simp [hb]⟩
      · exact ⟨0, gf2_divides_zero g, by simp [hb]⟩
    | succ n =>
      obtain ⟨j, rfl⟩ : ∃ k, j = k + 1 := ⟨j - 1, by omega⟩
      have hc : (g * 2 ^ (j + 1)) >>> 1 = g * 2 ^ j := by
        rw [Nat.shiftRight_eq_div_pow, pow_succ, ← Nat.mul_assoc]; simp
      rw [hc]
      obtain ⟨d, hd, hl⟩ := ih j (if s &&& m ≠ 0 then s ^^^ g * 2 ^ (j + 1) else s) (m >>> 1)
        (by omega)
      rw [hl]
      by_cases hb : s &&& m ≠ 0
      · refine ⟨g * 2 ^ (j + 1) ^^^ d, gf2_divides_xor (gf2_divides_shift g (j + 1)) hd, ?_⟩
        rw [if_pos hb]
        ac_rfl
      · exact ⟨d, hd, by rw [if_neg hb]⟩

theorem xor_eq_zero_left {s d : Nat} (h : s ^^^ d = 0) : s = d := Nat.xor_eq_zero.mp h

theorem bch_rem_xor (a b : Nat) : bch_rem (a ^^^ b) = bch_rem a ^^^ bch_rem b :=
  bch_syndrome_loop_xor _ _ _ _ _ (Or.inr ⟨30, by decide⟩)

theorem bch_rem_zero_divides (v : Nat) (h : bch_rem v = 0) : gf2_divides BCH_POLY v := by
  unfold bch_rem at h
  have hc : BCH_POLY <<< (BCH_K - 1) = BCH_POLY * 2 ^ 20 := by decide
  rw [hc] at h
  obtain ⟨d, hd, hl⟩ := bch_syndrome_loop_divides BCH_POLY BCH_K 20 v (1 <<< (BCH_N - 1))
    (by decide)
  rw [hl] at h
  rw [xor_eq_zero_left h]
  exact hd

theorem bch_rem_shift : ∀ s < 21, bch_rem (BCH_POLY * 2 ^ s) = 0 := by decide

theorem bch_rem_gf2_mul (n : Nat) : ∀ q s : Nat, q < 2 ^ n → n + s ≤ 21 →
    bch_rem (gf2_mul q (BCH_POLY * 2 ^ s)) = 0 := by
  induction n with
  | zero =>
    intro q s hq _
    have hq0 : q = 0 := by simpa using hq
    subst hq0
    rw [gf2_mul_zero]; decide
  | succ n ih =>
    intro q s hq hs
    rw [gf2_mul_step, bch_rem_xor]
    have h2 : 2 * (BCH_POLY * 2 ^ s) = BCH_POLY * 2 ^ (s + 1) := by rw [pow_succ]; ring
    rw [h2, ih (q / 2) (s + 1) (by rw [pow_succ] at hq; omega) (by omega)]
    by_cases hb : q % 2 = 1
    · simp only [hb, if_true, bch_rem_shift s (by omega)]; rfl
    · simp only [hb, if_false]; decide

/-- Degree of a product: a non-zero `q` with top bit `t` times a `g` with top bit `k`
has top bit `t + k`. -/
theorem gf2_mul_degree (n : Nat) : ∀ q g k : Nat, q < 2 ^ n → q ≠ 0 →
    2 ^ k ≤ g → g < 2 ^ (k + 1) →
    ∃ t, 2 ^ t ≤ q ∧ q < 2 ^ (t + 1) ∧ 2 ^ (t + k) ≤ gf2_mul q g ∧ gf2_mul q g < 2 ^ (t + k + 1) := by
  induction n with
  | zero => intro q g k hq hq0; simp at hq; exact absurd hq hq0
  | succ n ih =>
    intro q g k hq hq0 hg1 hg2
    by_cases h1 : q = 1
    · subst h1
      refine ⟨0, by simp, by simp, ?_, ?_⟩
      · rw [gf2_mul_step]; simpa [gf2_mul_zero] using hg1
      · rw [gf2_mul_step]; simpa [gf2_mul_zero] using hg2
    · have hq2 : q / 2 ≠ 0 := by omega
      obtain ⟨t, ht1, ht2, hm1, hm2⟩ := ih (q / 2) (2 * g) (k + 1)
        (by rw [pow_succ] at hq; omega) hq2 (by rw [pow_succ]; omega)
        (by rw [pow_succ 2 (k + 1)]; omega)
      have hx : (if q % 2 = 1 then g else 0) < 2 ^ (t + (k + 1)) := by
        have : 2 ^ (k + 1) ≤ 2 ^ (t + (k + 1)) := Nat.pow_le_pow_right (by decide) (by omega)
        split <;> omega
      refine ⟨t + 1, by rw [pow_succ]; omega, by rw [pow_succ]; omega, ?_, ?_⟩
      · rw [gf2_mul_step]
        apply Nat.testBit_implies_ge
        rw [Nat.testBit_xor, Nat.testBit_lt_two_pow (by simpa [Nat.add_assoc, Nat.add_comm 1 k] using hx)]
        obtain ⟨r, hr⟩ : ∃ r, gf2_mul (q / 2) (2 * g) = 2 ^ (t + (k + 1)) + r :=
          ⟨gf2_mul (q / 2) (2 * g) - 2 ^ (t + (k + 1)), by omega⟩
        have hr2 : r < 2 ^ (t + (k + 1)) := by
          rw [pow_succ] at hm2; omega
        have e : t + 1 + k = t + (k + 1) := by omega
        rw [e, hr, Nat.testBit_two_pow_add_eq, Nat.testBit_lt_two_pow hr2]
        rfl
      · rw [gf2_mul_step]
        have e : t + 1 + k + 1 = t + (k + 1) + 1 := by omega
        rw [e]
        exact Nat.xor_lt_two_pow (lt_trans hx (by rw [pow_succ]; omega)) hm2

theorem gf2_mul_bound (q : Nat) (h : gf2_mul q BCH_POLY < 2 ^ 31) : q < 2 ^ 21 := by
  by_cases hq0 : q = 0
  · subst hq0; decide
  · obtain ⟨t, ht1, ht2, hm1, _⟩ := gf2_mul_degree q q BCH_POLY 10 (Nat.lt_two_pow q) hq0
      (by decide) (by decide)
    have hlt : 2 ^ (t + 10) < 2 ^ 31 := lt_of_le_of_lt hm1 h
    have ht : t + 10 < 31 := (Nat.pow_lt_pow_iff_right (by decide)).mp hlt
    exact lt_of_lt_of_le ht2 (Nat.pow_le_pow_right (by decide) (by omega))

theorem bch_rem_zero_iff (v : Nat) (hv : v < 2 ^ 31) :
    bch_rem v = 0 ↔ gf2_divides BCH_POLY v := by
  constructor
  · exact bch_rem_zero_divides v
  · rintro ⟨q, rfl⟩
    have := bch_rem_gf2_mul 21 q 0 (gf2_mul_bound q hv) (by decide)
    simpa using this

/-! ## The parity bit -/

theorem parity_table_bits : ∀ x < 16, (0x6996 >>> x) &&& 1
    = (xor (x.testBit 0) (xor (x.testBit 1) (xor (x.testBit 2) (x.testBit 3)))).toNat := by
  decide

theorem countP_mod_two (p : Nat → Bool) (l : List Nat) :
    l.countP p % 2 = (xor_all p l).toNat := by
  induction l with
  | nil => rfl
  | cons i l ih =>
    rw [List.countP_cons, xor_all]
    cases hp : p i <;> cases hx : xor_all p l
    all_goals (rw [hx] at ih; simp only [Bool.toNat_false, Bool.toNat_true] at ih)
    all_goals simp
    all_goals omega

theorem xor_all_perm (p : Nat → Bool) {l₁ l₂ : List Nat} (h : l₁.Perm l₂) :
    xor_all p l₁ = xor_all p l₂ := by
  induction h with
  | nil => rfl
  | cons x _ ih => simp only [xor_all, ih]
  | swap x y l =>
    simp only [xor_all]
    cases p x <;> cases p y <;> simp
  | trans _ _ ih₁ ih₂ => exact ih₁.trans ih₂

theorem parity_order_perm : (List.range 32).Perm parity_order := by decide

theorem even_parity_bits (w : Nat) :
    even_parity w = (xor_all (fun i => w.testBit i) parity_order).toNat := by
  have h15 : ∀ i < 4, Nat.testBit 15 i = true := by decide
  have hy := parity_table_bits (xfold 4 (xfold 8 (xfold 16 w)) &&& 0xf)
    (Nat.and_lt_two_pow _ (by decide : 15 < 2 ^ 4))
  rw [even_parity_eq]
  refine hy.trans ?_
  congr 1
  simp only [parity_order, xor_all, xfold, Nat.testBit_and, Nat.testBit_xor,
    Nat.testBit_shiftRight, h15 0 (by decide), h15 1 (by decide), h15 2 (by decide),
    h15 3 (by decide), Bool.and_true, Nat.reduceAdd, Bool.xor_false, Bool.xor_assoc]

theorem even_parity_eq_popcount (w : Nat) : even_parity w = popcount32 w % 2 := by
  rw [even_parity_bits, popcount32, countP_mod_two, xor_all_perm _ parity_order_perm]

theorem synd_core_two_pow : ∀ i < 32, synd_core (2 ^ i) = core_tab.getD i 0 := by decide!

theorem even_parity_two_pow : ∀ i < 32, even_parity (2 ^ i) = 1 := by decide!

theorem two_pow_or_eq_xor {i j : Nat} (h : i ≠ j) : 2 ^ i ||| 2 ^ j = 2 ^ i ^^^ 2 ^ j := by
  apply Nat.eq_of_testBit_eq
  intro n
  simp only [Nat.testBit_or, Nat.testBit_xor, Nat.testBit_two_pow]
  by_cases h1 : i = n <;> by_cases h2 : j = n <;> simp [h1, h2]
  omega

theorem noHit_spec (x : Nat) : ∀ (ys : List Nat), noHit x ys = true →
    ∀ l, l < ys.length → x ^^^ ys.getD l 0 ≠ 0 := by
  intro ys
  induction ys with
  | nil => intro _ l hl; simp at hl
  | cons y ys ih =>
    intro h l hl
    simp only [noHit, Bool.and_eq_true, bne_iff_ne] at h
    cases l with
    | zero => simpa using h.1
    | succ l => simpa using ih h.2 l (by simpa using hl)

theorem chk2_spec : ∀ (ys : List Nat) (x : Nat), chk2 x ys = true →
    ∀ k l, k < l → l < ys.length → x ^^^ ys.getD k 0 ^^^ ys.getD l 0 ≠ 0 := by
  intro ys
  induction ys with
  | nil => intro _ _ k l _ hl; simp at hl
  | cons y ys ih =>
    intro x h k l hkl hl
    simp only [chk2, Bool.and_eq_true] at h
    obtain ⟨l, rfl⟩ : ∃ l', l = l' + 1 := ⟨l - 1, by omega⟩
    cases k with
    | zero => simpa using noHit_spec _ ys h.1 l (by simpa using hl)
    | succ k => simpa using ih x h.2 k l (by omega) (by simpa using hl)

theorem chk3_spec : ∀ (ys : List Nat) (x : Nat), chk3 x ys = true →
    ∀ j k l, j < k → k < l → l < ys.length →
      x ^^^ ys.getD j 0 ^^^ ys.getD k 0 ^^^ ys.getD l 0 ≠ 0 := by
  intro ys
  induction ys with
  | nil => intro _ _ j k l _ _ hl; simp at hl
  | cons y ys ih =>
    intro x h j k l hjk hkl hl
    simp only [chk3, Bool.and_eq_true] at h
    obtain ⟨l, rfl⟩ : ∃ l', l = l' + 1 := ⟨l - 1, by omega⟩
    obtain ⟨k, rfl⟩ : ∃ k', k = k' + 1 := ⟨k - 1, by omega⟩
    cases j with
    | zero => simpa using chk2_spec ys _ h.1 k l (by omega) (by simpa using hl)
    | succ j => simpa using ih x h.2 j k l (by omega) (by omega) (by simpa using hl)

theorem chk4_spec : ∀ (ys : List Nat), chk4 ys = true →
    ∀ i j k l, i < j → j < k → k < l → l < ys.length →
      ys.getD i 0 ^^^ ys.getD j 0 ^^^ ys.getD k 0 ^^^ ys.getD l 0 ≠ 0 := by
  intro ys
  induction ys with
  | nil => intro _ i j k l _ _ _ hl; simp at hl
  | cons y ys ih =>
    intro h i j k l hij hjk hkl hl
    simp only [chk4, Bool.and_eq_true] at h
    obtain ⟨l, rfl⟩ : ∃ l', l = l' + 1 := ⟨l - 1, by omega⟩
    obtain ⟨k, rfl⟩ : ∃ k', k = k' + 1 := ⟨k - 1, by omega⟩
    obtain ⟨j, rfl⟩ : ∃ j', j = j' + 1 := ⟨j - 1, by omega⟩
    cases i with
    | zero => simpa using chk3_spec ys _ h.1 j k l (by omega) (by omega) (by simpa using hl)
    | succ i =>
      simpa using ih h.2 i j k l (by omega) (by omega) (by omega) (by simpa using hl)

theorem core_tab_chk4 : chk4 core_tab = true := by decide!

theorem core_tab_weight4 (i j k l : Nat) (hij : i < j) (hjk : j < k) (hkl : k < l)
    (hl : l < 32) :
    core_tab.getD i 0 ^^^ core_tab.getD j 0 ^^^ core_tab.getD k 0 ^^^ core_tab.getD l 0 ≠ 0 :=
  chk4_spec core_tab core_tab_chk4 i j k l hij hjk hkl hl

theorem core_tab_weight2 : ∀ i < 32, ∀ j < 32,
    core_tab.getD i 0 ^^^ core_tab.getD j 0 = 0 → i = j := by decide!

theorem xor_pair_cancel (a b d : Nat) : (a ^^^ b) ^^^ (a ^^^ d) = b ^^^ d := by
  have h : (a ^^^ b) ^^^ (a ^^^ d) = (a ^^^ a) ^^^ (b ^^^ d) := by ac_rfl
  rw [h]; simp

/-- From injectivity and the sorted weight-four check: two pairs of positions with the
same XOR are the same pair. -/
theorem pairs_of_sorted (T : Nat → Nat)
    (w2 : ∀ x y, x < 32 → y < 32 → T x ^^^ T y = 0 → x = y)
    (w4 : ∀ i j k l, i < j → j < k → k < l → l < 32 → T i ^^^ T j ^^^ T k ^^^ T l ≠ 0)
    (i j k l : Nat) (hij : i < j) (hj : j < 32) (hkl : k < l) (hl : l < 32)
    (h : (T i ^^^ T j) ^^^ (T k ^^^ T l) = 0) : i = k ∧ j = l := by
  by_cases e1 : i = k
  · subst e1
    rw [xor_pair_cancel] at h
    exact ⟨rfl, w2 j l hj hl h⟩
  by_cases e2 : j = l
  · subst e2
    have h2 : T i ^^^ T k = 0 := by
      rw [← xor_pair_cancel (T j)]
      exact (show T j ^^^ T i ^^^ (T j ^^^ T k) = (T i ^^^ T j) ^^^ (T k ^^^ T j) by
        ac_rfl).trans h
    exact ⟨w2 i k (by omega) (by omega) h2, rfl⟩
  by_cases e3 : i = l
  · subst e3
    have h2 : T j ^^^ T k = 0 := by
      rw [← xor_pair_cancel (T i)]
      exact (show T i ^^^ T j ^^^ (T i ^^^ T k) = (T i ^^^ T j) ^^^ (T k ^^^ T i) by
        ac_rfl).trans h
    have := w2 j k hj (by omega) h2
    omega
  by_cases e4 : j = k
  · subst e4
    have h2 : T i ^^^ T l = 0 := by
      rw [← xor_pair_cancel (T j)]
      exact (show T j ^^^ T i ^^^ (T j ^^^ T l) = (T i ^^^ T j) ^^^ (T j ^^^ T l) by
        ac_rfl).trans h
    have := w2 i l (by omega) hl h2
    omega
  exfalso
  rcases Nat.lt_or_gt_of_ne e1 with h1 | h1
  · rcases Nat.lt_or_gt_of_ne e4 with h2 | h2
    · exact w4 i j k l hij h2 hkl hl ((show T i ^^^ T j ^^^ T k ^^^ T l
        = (T i ^^^ T j) ^^^ (T k ^^^ T l) by ac_rfl).trans h)
    · rcases Nat.lt_or_gt_of_ne e2 with h3 | h3
      · exact w4 i k j l h1 h2 h3 hl ((show T i ^^^ T k ^^^ T j ^^^ T l
          = (T i ^^^ T j) ^^^ (T k ^^^ T l) by ac_rfl).trans h)
      · exact w4 i k l j h1 hkl h3 hj ((show T i ^^^ T k ^^^ T l ^^^ T j
          = (T i ^^^ T j) ^^^ (T k ^^^ T l) by ac_rfl).trans h)
  · rcases Nat.lt_or_gt_of_ne e3 with h2 | h2
    · rcases Nat.lt_or_gt_of_ne e2 with h3 | h3
      · exact w4 k i j l h1 hij h3 hl ((show T k ^^^ T i ^^^ T j ^^^ T l
          = (T i ^^^ T j) ^^^ (T k ^^^ T l) by ac_rfl).trans h)
      · exact w4 k i l j h1 h2 h3 hj ((show T k ^^^ T i ^^^ T l ^^^ T j
          = (T i ^^^ T j) ^^^ (T k ^^^ T l) by ac_rfl).trans h)
    · exact w4 k l i j hkl h2 hij hj ((show T k ^^^ T l ^^^ T i ^^^ T j
        = (T i ^^^ T j) ^^^ (T k ^^^ T l) by ac_rfl).trans h)

/-- Two different pairs of bit positions never have the same remainder. -/
theorem core_tab_pairs (i j k l : Nat) (hij : i < j) (hj : j < 32) (hkl : k < l) (hl : l < 32)
    (h : (core_tab.getD i 0 ^^^ core_tab.getD j 0)
      ^^^ (core_tab.getD k 0 ^^^ core_tab.getD l 0) = 0) : i = k ∧ j = l :=
  pairs_of_sorted (fun n => core_tab.getD n 0)
    (fun x y hx hy => core_tab_weight2 x hx y hy) core_tab_weight4 i j k l hij hj hkl hl h

/-! ## The search loops of `bch_fix` -/

theorem bch_fix_loop1_none (data : Nat) : ∀ fuel i, bch_fix_loop1 data fuel i = none →
    ∀ k, i ≤ k → k < i + fuel → bch_syndrome (data ^^^ (1 <<< k)) ≠ 0 := by
  intro fuel
  induction fuel with
  | zero => intro i _ k h1 h2; omega
  | succ fuel ih =>
    intro i h k h1 h2
    simp only [bch_fix_loop1] at h
    by_cases hs : bch_syndrome (data ^^^ (1 <<< i)) = 0
    · simp [hs] at h
    · rw [if_neg hs] at h
      by_cases hk : k = i
      · subst hk; exact hs
      · exact ih (i + 1) h k (by omega) (by omega)

theorem bch_fix_loop1_some (data : Nat) : ∀ fuel i t, bch_fix_loop1 data fuel i = some t →
    ∃ k, i ≤ k ∧ k < i + fuel ∧ t = data ^^^ (1 <<< k) ∧ bch_syndrome t = 0 := by
  intro fuel
  induction fuel with
  | zero => intro i t h; simp [bch_fix_loop1] at h
  | succ fuel ih =>
    intro i t h
    simp only [bch_fix_loop1] at h
    by_cases hs : bch_syndrome (data ^^^ (1 <<< i)) = 0
    · rw [if_pos hs] at h
      have ht : data ^^^ (1 <<< i) = t := by simpa using h
      exact ⟨i, le_refl _, by omega, ht.symm, ht ▸ hs⟩
    · rw [if_neg hs] at h
      obtain ⟨k, h1, h2, h3, h4⟩ := ih (i + 1) t h
      exact ⟨k, by omega, by omega, h3, h4⟩

theorem bch_fix_loop1_none_of (data : Nat) : ∀ fuel i,
    (∀ k, i ≤ k → k < i + fuel → bch_syndrome (data ^^^ (1 <<< k)) ≠ 0) →
    bch_fix_loop1 data fuel i = none := by
  intro fuel
  induction fuel with
  | zero => intro i _; rfl
  | succ fuel ih =>
    intro i h
    simp only [bch_fix_loop1]
    rw [if_neg (h i (le_refl _) (by omega))]
    exact ih (i + 1) (fun k h1 h2 => h k (by omega) (by omega))

theorem bch_fix_loop1_first (data k : Nat) : ∀ fuel i, i ≤ k → k < i + fuel →
    (∀ k', i ≤ k' → k' < k → bch_syndrome (data ^^^ (1 <<< k')) ≠ 0) →
    bch_syndrome (data ^^^ (1 <<< k)) = 0 →
    bch_fix_loop1 data fuel i = some (data ^^^ (1 <<< k)) := by
  intro fuel
  induction fuel with
  | zero => intro i h1 h2; omega
  | succ fuel ih =>
    intro i h1 h2 hb hk
    simp only [bch_fix_loop1]
    by_cases e : i = k
    · subst e; rw [if_pos hk]
    · rw [if_neg (hb i (le_refl _) (by omega))]
      exact ih (i + 1) (by omega) (by omega) (fun k' h3 h4 => hb k' (by omega) h4) hk

theorem bch_fix_inner_none (data i : Nat) : ∀ fuel j, bch_fix_inner data i fuel j = none →
    ∀ l, j ≤ l → l < j + fuel → bch_syndrome (data ^^^ ((1 <<< i) ||| (1 <<< l))) ≠ 0 := by
  intro fuel
  induction fuel with
  | zero => intro j _ l h1 h2; omega
  | succ fuel ih =>
    intro j h l h1 h2
    simp only [bch_fix_inner] at h
    by_cases hs : bch_syndrome (data ^^^ ((1 <<< i) ||| (1 <<< j))) = 0
    · simp [hs] at h
    · rw [if_neg hs] at h
      by_cases hl : l = j
      · subst hl; exact hs
      · exact ih (j + 1) h l (by omega) (by omega)

theorem bch_fix_inner_some (data i : Nat) : ∀ fuel j t, bch_fix_inner data i fuel j = some t →
    ∃ l, j ≤ l ∧ l < j + fuel ∧ t = data ^^^ ((1 <<< i) ||| (1 <<< l)) ∧ bch_syndrome t = 0 := by
  intro fuel
  induction fuel with
  | zero => intro j t h; simp [bch_fix_inner] at h
  | succ fuel ih =>
    intro j t h
    simp only [bch_fix_inner] at h
    by_cases hs : bch_syndrome (data ^^^ ((1 <<< i) ||| (1 <<< j))) = 0
    · rw [if_pos hs] at h
      have ht : data ^^^ ((1 <<< i) ||| (1 <<< j)) = t := by simpa using h
      exact ⟨j, le_refl _, by omega, ht.symm, ht ▸ hs⟩
    · rw [if_neg hs] at h
      obtain ⟨l, h1, h2, h3, h4⟩ := ih (j + 1) t h
      exact ⟨l, by omega, by omega, h3, h4⟩

theorem bch_fix_inner_none_of (data i : Nat) : ∀ fuel j,
    (∀ l, j ≤ l → l < j + fuel → bch_syndrome (data ^^^ ((1 <<< i) ||| (1 <<< l))) ≠ 0) →
    bch_fix_inner data i fuel j = none := by
  intro fuel
  induction fuel with
  | zero => intro j _; rfl
  | succ fuel ih =>
    intro j h
    simp only [bch_fix_inner]
    rw [if_neg (h j (le_refl _) (by omega))]
    exact ih (j + 1) (fun l h1 h2 => h l (by omega) (by omega))

theorem bch_fix_inner_first (data i l : Nat) : ∀ fuel j, j ≤ l → l < j + fuel →
    (∀ l', j ≤ l' → l' < l → bch_syndrome (data ^^^ ((1 <<< i) ||| (1 <<< l'))) ≠ 0) →
    bch_syndrome (data ^^^ ((1 <<< i) ||| (1 <<< l))) = 0 →
    bch_fix_inner data i fuel j = some (data ^^^ ((1 <<< i) ||| (1 <<< l))) := by
  intro fuel
  induction fuel with
  | zero => intro j h1 h2; omega
  | succ fuel ih =>
    intro j h1 h2 hb hl
    simp only [bch_fix_inner]
    by_cases e : j = l
    · subst e; rw [if_pos hl]
    · rw [if_neg (hb j (le_refl _) (by omega))]
      exact ih (j + 1) (by omega) (by omega) (fun l' h3 h4 => hb l' (by omega) h4) hl

theorem bch_fix_loop2_none (data : Nat) : ∀ fuel i, i + fuel ≤ 32 →
    bch_fix_loop2 data fuel i = none →
    ∀ k l, i ≤ k → k < i + fuel → k < l → l < 32 →
      bch_syndrome (data ^^^ ((1 <<< k) ||| (1 <<< l))) ≠ 0 := by
  intro fuel
  induction fuel with
  | zero => intro i _ _ k l h1 h2; omega
  | succ fuel ih =>
    intro i hi h k l h1 h2 h3 h4
    rw [bch_fix_loop2] at h
    cases hin : bch_fix_inner data i (32 - (i + 1)) (i + 1) with
    | some t => rw [hin] at h; simp at h
    | none =>
      rw [hin] at h; dsimp only at h
      by_cases hk : k = i
      · subst hk
        exact bch_fix_inner_none data k _ _ hin l (by omega) (by omega)
      · exact ih (i + 1) (by omega) h k l (by omega) (by omega) h3 h4

theorem bch_fix_loop2_some (data : Nat) : ∀ fuel i t, i + fuel ≤ 32 →
    bch_fix_loop2 data fuel i = some t →
    ∃ k l, i ≤ k ∧ k < l ∧ l < 32 ∧ t = data ^^^ ((1 <<< k) ||| (1 <<< l))
      ∧ bch_syndrome t = 0 := by
  intro fuel
  induction fuel with
  | zero => intro i t _ h; simp [bch_fix_loop2] at h
  | succ fuel ih =>
    intro i t hi h
    rw [bch_fix_loop2] at h
    cases hin : bch_fix_inner data i (32 - (i + 1)) (i + 1) with
    | some t' =>
      rw [hin] at h; dsimp only at h
      have ht : t' = t := by simpa using h
      subst ht
      obtain ⟨l, h1, h2, h3, h4⟩ := bch_fix_inner_some data i _ _ _ hin
      exact ⟨i, l, le_refl _, by omega, by omega, h3, h4⟩
    | none =>
      rw [hin] at h; dsimp only at h
      obtain ⟨k, l, h1, h2, h3, h4, h5⟩ := ih (i + 1) t (by omega) h
      exact ⟨k, l, by omega, h2, h3, h4, h5⟩

theorem bch_fix_loop2_none_of (data : Nat) : ∀ fuel i,
    (∀ k l, i ≤ k → k < i + fuel → k < l → l < 32 →
      bch_syndrome (data ^^^ ((1 <<< k) ||| (1 <<< l))) ≠ 0) →
    bch_fix_loop2 data fuel i = none := by
  intro fuel
  induction fuel with
  | zero => intro i _; rfl
  | succ fuel ih =>
    intro i h
    rw [bch_fix_loop2]
    rw [bch_fix_inner_none_of data i _ _
      (fun l h1 h2 => h i l (le_refl _) (by omega) (by omega) (by omega))]
    exact ih (i + 1) (fun k l h1 h2 h3 h4 => h k l (by omega) (by omega) h3 h4)

theorem bch_fix_loop2_first (data k l : Nat) (hkl : k < l) (hl : l < 32) : ∀ fuel i,
    i ≤ k → k < i + fuel →
    (∀ k' l', i ≤ k' → k' < l' → l' < 32 → (k' < k ∨ (k' = k ∧ l' < l)) →
      bch_syndrome (data ^^^ ((1 <<< k') ||| (1 <<< l'))) ≠ 0) →
    bch_syndrome (data ^^^ ((1 <<< k) ||| (1 <<< l))) = 0 →
    bch_fix_loop2 data fuel i = some (data ^^^ ((1 <<< k) ||| (1 <<< l))) := by
  intro fuel
  induction fuel with
  | zero => intro i h1 h2; omega
  | succ fuel ih =>
    intro i h1 h2 hb hz
    rw [bch_fix_loop2]
    by_cases e : i = k
    · subst e
      rw [bch_fix_inner_first data i l _ _ (by omega) (by omega)
        (fun l' h3 h4 => hb i l' (le_refl _) (by omega) (by omega) (Or.inr ⟨rfl, h4⟩)) hz]
    · rw [bch_fix_inner_none_of data i _ _
        (fun l' h3 h4 => hb i l' (le_refl _) (by omega) (by omega) (Or.inl (by omega)))]
      exact ih (i + 1) (by omega) (by omega)
        (fun k' l' h3 h4 h5 h6 => hb k' l' (by omega) h4 h5 h6) hz

/-! ## Syndromes of error patterns of weight one and two -/

theorem bch_syndrome_zero : bch_syndrome 0 = 0 := by decide

theorem syn_single {i k : Nat} (hi : i < 32) (hk : k < 32) :
    bch_syndrome (2 ^ i ^^^ 2 ^ k) = 0 ↔ i = k := by
  constructor
  · intro h
    rw [bch_syndrome_eq_zero_iff, synd_core_xor, synd_core_two_pow i hi,
      synd_core_two_pow k hk] at h
    exact core_tab_weight2 i hi k hk h.1
  · rintro rfl
    rw [Nat.xor_self]; exact bch_syndrome_zero

theorem syn_pair_single {i j k : Nat} (hi : i < 32) (hj : j < 32) (hij : i ≠ j) (hk : k < 32) :
    bch_syndrome ((2 ^ i ||| 2 ^ j) ^^^ 2 ^ k) ≠ 0 := by
  intro h
  rw [bch_syndrome_eq_zero_iff, two_pow_or_eq_xor hij, even_parity_xor, even_parity_xor,
    even_parity_two_pow i hi, even_parity_two_pow j hj, even_parity_two_pow k hk] at h
  exact absurd h.2 (by decide)

theorem syn_pair_pair {i j k l : Nat} (hij : i < j) (hj : j < 32) (hkl : k < l) (hl : l < 32)
    (h : bch_syndrome ((2 ^ i ||| 2 ^ j) ^^^ (2 ^ k ||| 2 ^ l)) = 0) : i = k ∧ j = l := by
  rw [bch_syndrome_eq_zero_iff, two_pow_or_eq_xor (Nat.ne_of_lt hij),
    two_pow_or_eq_xor (Nat.ne_of_lt hkl), synd_core_xor, synd_core_xor, synd_core_xor,
    synd_core_two_pow i (by omega), synd_core_two_pow j hj, synd_core_two_pow k (by omega),
    synd_core_two_pow l hl] at h
  exact core_tab_pairs i j k l hij hj hkl hl h.1

theorem hamming_weight_single : ∀ i < 32, hamming_weight (2 ^ i) = 1 := by decide!

theorem hamming_weight_pair : ∀ j < 32, ∀ i < j, hamming_weight (2 ^ i ||| 2 ^ j) = 2 := by
  decide!

theorem xor_xor_cancel (x e : Nat) : (x ^^^ e) ^^^ x = e := by
  rw [Nat.xor_comm x e, Nat.xor_cancel_right]

/-- Two flipped bits `i < j` of a valid codeword are found by the second loop. -/
theorem bch_fix_two_sorted (w i j : Nat) (hs : bch_syndrome w = 0) (hij : i < j) (hj : j < 32) :
    bch_fix (w ^^^ ((1 <<< i) ||| (1 <<< j))) = w := by
  have h1 : bch_fix_loop1 (w ^^^ ((1 <<< i) ||| (1 <<< j))) 32 0 = none := by
    apply bch_fix_loop1_none_of
    intro k _ hk
    simp only [Nat.one_shiftLeft]
    rw [Nat.xor_assoc]
    intro hz
    rw [bch_syndrome_xor_valid _ _ hs] at hz
    exact syn_pair_single (by omega) hj (Nat.ne_of_lt hij) (by omega) hz
  have h2 : bch_fix_loop2 (w ^^^ ((1 <<< i) ||| (1 <<< j))) 32 0
      = some ((w ^^^ ((1 <<< i) ||| (1 <<< j))) ^^^ ((1 <<< i) ||| (1 <<< j))) := by
    apply bch_fix_loop2_first _ i j hij hj 32 0 (by omega) (by omega)
    · intro k l _ hkl hl hlex
      simp only [Nat.one_shiftLeft]
      rw [Nat.xor_assoc]
      intro hz
      rw [bch_syndrome_xor_valid _ _ hs] at hz
      have := syn_pair_pair hij hj hkl hl hz
      omega
    · rw [Nat.xor_cancel_right]; exact hs
  unfold bch_fix
  rw [h1]
  simp only [h2, Nat.xor_cancel_right]

theorem syn_one_bit {k : Nat} (hk : k < 32) : bch_syndrome (2 ^ k) ≠ 0 := by
  intro h
  rw [bch_syndrome_eq_zero_iff, even_parity_two_pow k hk] at h
  exact absurd h.2 (by decide)

theorem syn_two_bits {k l : Nat} (hkl : k < l) (hl : l < 32) :
    bch_syndrome (2 ^ k ||| 2 ^ l) ≠ 0 := by
  intro h
  rw [two_pow_or_eq_xor (Nat.ne_of_lt hkl)] at h
  have := (syn_single (by omega) hl).mp h
  omega

/-- A word with zero syndrome is left alone by `bch_fix`. -/
theorem bch_fix_clean (w : Nat) (hs : bch_syndrome w = 0) : bch_fix w = w := by
  have h1 : bch_fix_loop1 w 32 0 = none := by
    apply bch_fix_loop1_none_of
    intro k _ hk hz
    rw [Nat.one_shiftLeft, bch_syndrome_xor_valid _ _ hs] at hz
    exact syn_one_bit (by omega) hz
  have h2 : bch_fix_loop2 w 32 0 = none := by
    apply bch_fix_loop2_none_of
    intro k l _ _ hkl hl hz
    rw [Nat.one_shiftLeft, Nat.one_shiftLeft, bch_syndrome_xor_valid _ _ hs] at hz
    exact syn_two_bits hkl hl hz
  unfold bch_fix
  rw [h1]
  simp only [h2]

/-! ## Properties of the BCH codec -/

/-- C1: for every 32-bit word `w`, `bch_syndrome w = 0` exactly when the 31-bit block
`w >> 1`, read as a polynomial over GF(2), is a multiple of the generator `0x769`
and `w` has an even number of set bits. -/
theorem bch_syndrome_zero_iff_codeword (w : Nat) (hw : w < 2 ^ 32) :
    bch_syndrome w = 0 ↔ (gf2_divides BCH_POLY (w >>> 1) ∧ popcount32 w % 2 = 0) := by
  have hv : w >>> 1 < 2 ^ 31 := by
    rw [Nat.shiftRight_eq_div_pow]; omega
  rw [bch_syndrome_eq_zero_iff, ← even_parity_eq_popcount, ← bch_rem_zero_iff _ hv]
  rfl

theorem bch_syndrome_zero_iff_codeword_witness :
    bch_syndrome 0x7cd215d8 = 0 ↔
      (gf2_divides BCH_POLY (0x7cd215d8 >>> 1) ∧ popcount32 0x7cd215d8 % 2 = 0) :=
  bch_syndrome_zero_iff_codeword 0x7cd215d8 (by decide)

/-- C2: flipping any single bit `i` of a word with zero syndrome is undone by `bch_fix`. -/
theorem bch_fix_single_flip (w i : Nat) (_hw : w < 2 ^ 32) (hs : bch_syndrome w = 0)
    (hi : i < 32) : bch_fix (w ^^^ (1 <<< i)) = w := by
  have h1 : bch_fix_loop1 (w ^^^ (1 <<< i)) 32 0 = some ((w ^^^ (1 <<< i)) ^^^ (1 <<< i)) := by
    apply bch_fix_loop1_first _ i 32 0 (by omega) (by omega)
    · intro k _ hk
      simp only [Nat.one_shiftLeft]
      rw [Nat.xor_assoc]
      intro hz
      rw [bch_syndrome_xor_valid _ _ hs] at hz
      have := (syn_single hi (by omega)).mp hz
      omega
    · rw [Nat.xor_cancel_right]; exact hs
  unfold bch_fix
  simp only [h1, Nat.xor_cancel_right]

theorem bch_fix_single_flip_witness :
    bch_fix (0x7cd215d8 ^^^ (1 <<< 5)) = 0x7cd215d8 :=
  bch_fix_single_flip 0x7cd215d8 5 (by decide) (by decide) (by decide)

/-- C3: flipping any two distinct bits `i`, `j` of a word with zero syndrome is undone by
`bch_fix`. -/
theorem bch_fix_double_flip (w i j : Nat) (_hw : w < 2 ^ 32) (hs : bch_syndrome w = 0)
    (hi : i < 32) (hj : j < 32) (hij : i ≠ j) :
    bch_fix (w ^^^ ((1 <<< i) ||| (1 <<< j))) = w := by
  rcases Nat.lt_or_gt_of_ne hij with h | h
  · exact bch_fix_two_sorted w i j hs h hj
  · rw [Nat.or_comm]
    exact bch_fix_two_sorted w j i hs h hi

theorem bch_fix_double_flip_witness :
    bch_fix (0x7cd215d8 ^^^ ((1 <<< 31) ||| (1 <<< 0))) = 0x7cd215d8 :=
  bch_fix_double_flip 0x7cd215d8 31 0 (by decide) (by decide) (by decide) (by decide)
    (by decide)

/-- C5: if no single-bit flip and no two-bit flip of the 32-bit word `x` has zero syndrome,
`bch_fix x = x`; otherwise `bch_fix x` has zero syndrome and is `x` with exactly one or
exactly two bits flipped, so `hamming_weight (bch_fix x ^ x)` is 1 or 2. -/
theorem bch_fix_outcome (x : Nat) (_hx : x < 2 ^ 32) :
    (((∀ i < 32, bch_syndrome (x ^^^ (1 <<< i)) ≠ 0) ∧
        (∀ j < 32, ∀ i < j, bch_syndrome (x ^^^ ((1 <<< i) ||| (1 <<< j))) ≠ 0)) →
      bch_fix x = x) ∧
    (¬ ((∀ i < 32, bch_syndrome (x ^^^ (1 <<< i)) ≠ 0) ∧
        (∀ j < 32, ∀ i < j, bch_syndrome (x ^^^ ((1 <<< i) ||| (1 <<< j))) ≠ 0)) →
      bch_syndrome (bch_fix x) = 0 ∧
      ((∃ i < 32, bch_fix x = x ^^^ (1 <<< i) ∧ hamming_weight (bch_fix x ^^^ x) = 1) ∨
        (∃ j < 32, ∃ i < j, bch_fix x = x ^^^ ((1 <<< i) ||| (1 <<< j)) ∧
          hamming_weight (bch_fix x ^^^ x) = 2))) := by
  constructor
  · rintro ⟨h1, h2⟩
    unfold bch_fix
    rw [bch_fix_loop1_none_of x 32 0 (fun k _ hk => h1 k (by omega)),
      bch_fix_loop2_none_of x 32 0 (fun k l _ _ hkl hl => h2 l hl k hkl)]
  · intro hne
    cases e1 : bch_fix_loop1 x 32 0 with
    | some t =>
      obtain ⟨k, _, hk, ht, hz⟩ := bch_fix_loop1_some x 32 0 t e1
      have hf : bch_fix x = t := by unfold bch_fix; rw [e1]
      rw [hf]
      refine ⟨hz, Or.inl ⟨k, by omega, ht, ?_⟩⟩
      rw [ht, xor_xor_cancel, Nat.one_shiftLeft]
      exact hamming_weight_single k (by omega)
    | none =>
      cases e2 : bch_fix_loop2 x 32 0 with
      | some t =>
        obtain ⟨k, l, _, hkl, hl, ht, hz⟩ := bch_fix_loop2_some x 32 0 t (by omega) e2
        have hf : bch_fix x = t := by unfold bch_fix; rw [e1]; simp only [e2]
        rw [hf]
        refine ⟨hz, Or.inr ⟨l, hl, k, hkl, ht, ?_⟩⟩
        rw [ht, xor_xor_cancel, Nat.one_shiftLeft, Nat.one_shiftLeft]
        exact hamming_weight_pair l hl k hkl
      | none =>
        exfalso
        apply hne
        constructor
        · intro i hi
          exact bch_fix_loop1_none x 32 0 e1 i (by omega) (by omega)
        · intro j hj i hij
          exact bch_fix_loop2_none x 32 0 (by omega) e2 i j (by omega) (by omega) hij hj

theorem bch_fix_outcome_witness :
    bch_fix 7 = 7 ∧ bch_syndrome (bch_fix 0x7cd215d9) = 0 :=
  ⟨(bch_fix_outcome 7 (by decide)).1 (by decide!),
    ((bch_fix_outcome 0x7cd215d9 (by decide)).2
      (fun h => h.1 0 (by decide) (by decide))).1⟩

theorem testBit_false_of_lt {x n j : Nat} (h : x < 2 ^ n) (hj : n ≤ j) : x.testBit j = false :=
  Nat.testBit_lt_two_pow (lt_of_lt_of_le h (Nat.pow_le_pow_right (by decide) hj))

theorem gf2_mod_loop_divides (g dg : Nat) : ∀ i v : Nat,
    ∃ d, gf2_divides g d ∧ gf2_mod_loop g dg i v = v ^^^ d := by
  intro i
  induction i with
  | zero => intro v; exact ⟨0, gf2_divides_zero g, by simp [gf2_mod_loop]⟩
  | succ i ih =>
    intro v
    simp only [gf2_mod_loop]
    obtain ⟨d, hd, hl⟩ := ih (if v.testBit (i + dg) then v ^^^ (g <<< i) else v)
    rw [hl]
    by_cases hb : v.testBit (i + dg) = true
    · refine ⟨g * 2 ^ i ^^^ d, gf2_divides_xor (gf2_divides_shift g i) hd, ?_⟩
      rw [if_pos hb, Nat.shiftLeft_eq]
      ac_rfl
    · exact ⟨d, hd, by rw [if_neg hb]⟩

theorem gf2_mod_loop_lt : ∀ i v : Nat, v < 2 ^ (i + 10) →
    gf2_mod_loop BCH_POLY 10 i v < 2 ^ 10 := by
  intro i
  induction i with
  | zero => intro v hv; simpa [gf2_mod_loop] using hv
  | succ i ih =>
    intro v hv
    simp only [gf2_mod_loop]
    apply ih
    apply Nat.lt_pow_two_of_testBit
    intro j hj
    have hg : BCH_POLY < 2 ^ 11 := by decide
    have hg10 : BCH_POLY.testBit 10 = true := by decide
    by_cases hb : v.testBit (i + 10) = true
    · rw [if_pos hb, Nat.testBit_xor, Nat.testBit_shiftLeft]
      by_cases e : j = i + 10
      · subst e
        have e2 : i + 10 - i = 10 := by omega
        rw [hb, e2, hg10]
        simp
      · have h1 : v.testBit j = false :=
          testBit_false_of_lt hv (by omega)
        have h2 : BCH_POLY.testBit (j - i) = false := testBit_false_of_lt hg (by omega)
        rw [h1, h2]; simp
    · rw [if_neg hb]
      by_cases e : j = i + 10
      · subst e; simpa using hb
      · exact testBit_false_of_lt hv (by omega)

theorem gf2_mod_bch_spec (v : Nat) (hv : v < 2 ^ 31) :
    gf2_mod_bch v < 2 ^ 10 ∧ gf2_divides BCH_POLY (v ^^^ gf2_mod_bch v) := by
  refine ⟨gf2_mod_loop_lt 21 v hv, ?_⟩
  obtain ⟨d, hd, hl⟩ := gf2_mod_loop_divides BCH_POLY 10 21 v
  unfold gf2_mod_bch
  rw [hl, ← Nat.xor_assoc, Nat.xor_self, Nat.zero_xor]
  exact hd

theorem even_parity_bit : ∀ b < 2, even_parity b = b := by decide

theorem or_bit_eq_xor (u b : Nat) (hu : u.testBit 0 = false) (hb : b < 2) :
    u ||| b = u ^^^ b := by
  apply Nat.eq_of_testBit_eq
  intro n
  rw [Nat.testBit_or, Nat.testBit_xor]
  cases n with
  | zero => rw [hu]; simp
  | succ n =>
    rw [testBit_false_of_lt (show b < 2 ^ 1 from hb) (by omega)]
    simp

theorem encode_block (p r b : Nat) (hr : r < 2 ^ 10) (hb : b < 2) :
    (((p <<< 11) ||| (r <<< 1)) ||| b) >>> 1 = (p <<< 10) ^^^ r := by
  apply Nat.eq_of_testBit_eq
  intro n
  simp only [Nat.testBit_shiftRight, Nat.testBit_or, Nat.testBit_xor, Nat.testBit_shiftLeft]
  rw [testBit_false_of_lt (show b < 2 ^ 1 from hb) (by omega)]
  by_cases hn : n < 10
  · have h1 : decide (1 + n ≥ 11) = false := by simp; omega
    have h2 : decide (n ≥ 10) = false := by simp; omega
    have h3 : decide (1 + n ≥ 1) = true := by simp
    have e : 1 + n - 1 = n := by omega
    simp [h1, h2, h3, e]
  · have h1 : decide (1 + n ≥ 11) = true := by simp; omega
    have h2 : decide (n ≥ 10) = true := by simp; omega
    have e : 1 + n - 11 = n - 10 := by omega
    have e2 : 1 + n - 1 = n := by omega
    rw [h1, h2, e, e2, testBit_false_of_lt hr (by omega)]
    simp

theorem encode_payload (p r b : Nat) (hr : r < 2 ^ 10) (hb : b < 2) :
    (((p <<< 11) ||| (r <<< 1)) ||| b) >>> 11 = p := by
  apply Nat.eq_of_testBit_eq
  intro n
  simp only [Nat.testBit_shiftRight, Nat.testBit_or, Nat.testBit_shiftLeft]
  have h1 : decide (11 + n ≥ 11) = true := by simp
  have h3 : decide (11 + n ≥ 1) = true := by simp; omega
  have e : 11 + n - 11 = n := by omega
  rw [h1, h3, e, testBit_false_of_lt (show b < 2 ^ 1 from hb) (by omega),
    testBit_false_of_lt hr (by omega)]
  simp

/-- C4: for a 21-bit payload `p` the check bits of the systematic encoding are the remainder
of `p(x) * x^10` modulo the generator, the encoded word has zero syndrome, and its payload
field `w >> 11` is `p` again. -/
theorem bch_encode_roundtrip (p : Nat) (hp : p < 2 ^ 21) :
    (gf2_mod_bch (p <<< 10) < 2 ^ 10 ∧
      gf2_divides BCH_POLY ((p <<< 10) ^^^ gf2_mod_bch (p <<< 10))) ∧
    bch_syndrome (bch_encode p) = 0 ∧ bch_encode p >>> 11 = p := by
  have hv : p <<< 10 < 2 ^ 31 := by
    rw [Nat.shiftLeft_eq]; omega
  obtain ⟨hr, hd⟩ := gf2_mod_bch_spec (p <<< 10) hv
  have hb : popcount32 ((p <<< 11) ||| (gf2_mod_bch (p <<< 10) <<< 1)) % 2 < 2 :=
    Nat.mod_lt _ (by decide)
  refine ⟨⟨hr, hd⟩, ?_, encode_payload p _ _ hr hb⟩
  rw [bch_syndrome_eq_zero_iff]
  constructor
  · show bch_rem (bch_encode p >>> 1) = 0
    unfold bch_encode
    simp only []
    rw [encode_block p _ _ hr hb, bch_rem_zero_iff _ (Nat.xor_lt_two_pow hv
      (lt_trans hr (by decide)))]
    exact hd
  · unfold bch_encode
    simp only []
    have hu : ((p <<< 11) ||| (gf2_mod_bch (p <<< 10) <<< 1)).testBit 0 = false := by
      simp [Nat.testBit_or, Nat.testBit_shiftLeft]
    rw [or_bit_eq_xor _ _ hu hb, even_parity_xor, even_parity_bit _ hb,
      even_parity_eq_popcount, Nat.xor_self]

theorem bch_encode_roundtrip_witness :
    (gf2_mod_bch (0x0f9a42 <<< 10) < 2 ^ 10 ∧
      gf2_divides BCH_POLY ((0x0f9a42 <<< 10) ^^^ gf2_mod_bch (0x0f9a42 <<< 10))) ∧
    bch_syndrome (bch_encode 0x0f9a42) = 0 ∧ bch_encode 0x0f9a42 >>> 11 = 0x0f9a42 :=
  bch_encode_roundtrip 0x0f9a42 (by decide)

/-! ## Sync tracking -/

theorem pocsag_rx_classify_sync (ps : pocsag) (cw syn : Nat) :
    (pocsag_rx_classify ps cw syn).sync = ps.sync := by
  unfold pocsag_rx_classify
  split_ifs <;> rfl

theorem pocsag_rx_classify_cw_bits (ps : pocsag) (cw syn : Nat) :
    (pocsag_rx_classify ps cw syn).cw_bits = ps.cw_bits := by
  unfold pocsag_rx_classify
  split_ifs <;> rfl

theorem pocsag_rx_classify_cw_num (ps : pocsag) (cw syn : Nat) :
    (pocsag_rx_classify ps cw syn).cw_num = ps.cw_num := by
  unfold pocsag_rx_classify
  split_ifs <;> rfl

theorem pocsag_rx_cw_eq_track (ps : pocsag) :
    pocsag_rx_cw ps = pocsag_rx_track ps (fixed_cw ps.cw) (final_syndrome ps.cw) := by
  unfold pocsag_rx_cw fixed_cw final_syndrome
  simp only []
  split_ifs <;> rfl

/-- Sync is lost: nothing but `sync` changes. -/
theorem pocsag_rx_track_lost (ps : pocsag) (cw syn : Nat) (h : syn ≠ 0)
    (hs : ps.sync - 1 ≤ 0) : pocsag_rx_track ps cw syn = { ps with sync := 0 } := by
  unfold pocsag_rx_track
  simp only [SYNC_DEC]
  rw [if_pos ⟨h, hs⟩]

/-- The codeword in the pre-batch slot: only sync tracking and `cw_num` change. -/
theorem pocsag_rx_track_pre (ps : pocsag) (cw syn : Nat)
    (h : ¬ (syn ≠ 0 ∧ ps.sync - 1 ≤ 0)) (hn : ps.cw_num = -1) :
    pocsag_rx_track ps cw syn =
      { ps with sync := (if syn ≠ 0 then ps.sync - 1
                         else if ps.sync + 2 > 10 then 10 else ps.sync + 2),
                cw_num := 0 } := by
  unfold pocsag_rx_track
  simp only [SYNC_DEC, SYNC_INC, SYNC_MAX]
  rw [if_neg h]
  split_ifs <;> simp_all

/-- A codeword inside the batch: sync tracking, classification, `cw_num` advanced. -/
theorem pocsag_rx_track_batch (ps : pocsag) (cw syn : Nat)
    (h : ¬ (syn ≠ 0 ∧ ps.sync - 1 ≤ 0)) (hn : ps.cw_num ≠ -1) :
    pocsag_rx_track ps cw syn =
      { pocsag_rx_classify
          { ps with sync := (if syn ≠ 0 then ps.sync - 1
                             else if ps.sync + 2 > 10 then 10 else ps.sync + 2) } cw syn with
        cw_num := if ps.cw_num + 1 = 16 then -1 else ps.cw_num + 1 } := by
  unfold pocsag_rx_track
  simp only [SYNC_DEC, SYNC_INC, SYNC_MAX]
  rw [if_neg h]
  split_ifs <;> simp_all [pocsag_rx_classify_cw_num]

theorem pocsag_rx_track_sync (ps : pocsag) (cw syn : Nat) :
    (pocsag_rx_track ps cw syn).sync =
      if syn ≠ 0 then (if ps.sync - 1 ≤ 0 then 0 else ps.sync - 1)
      else (if ps.sync + 2 > 10 then 10 else ps.sync + 2) := by
  by_cases h : syn ≠ 0 ∧ ps.sync - 1 ≤ 0
  · rw [pocsag_rx_track_lost ps cw syn h.1 h.2, if_pos h.1, if_pos h.2]
  · by_cases hn : ps.cw_num = -1
    · rw [pocsag_rx_track_pre ps cw syn h hn]
      simp only []
      split_ifs <;> first | rfl | omega
    · rw [pocsag_rx_track_batch ps cw syn h hn]
      simp only [pocsag_rx_classify_sync]
      split_ifs <;> first | rfl | omega

theorem pocsag_rx_track_cw_bits (ps : pocsag) (cw syn : Nat) :
    (pocsag_rx_track ps cw syn).cw_bits = ps.cw_bits := by
  by_cases h : syn ≠ 0 ∧ ps.sync - 1 ≤ 0
  · rw [pocsag_rx_track_lost ps cw syn h.1 h.2]
  · by_cases hn : ps.cw_num = -1
    · rw [pocsag_rx_track_pre ps cw syn h hn]
    · rw [pocsag_rx_track_batch ps cw syn h hn]
      simp only [pocsag_rx_classify_cw_bits]

theorem pocsag_rx_cw_sync (ps : pocsag) :
    (pocsag_rx_cw ps).sync =
      if final_syndrome ps.cw ≠ 0 then (if ps.sync - 1 ≤ 0 then 0 else ps.sync - 1)
      else (if ps.sync + 2 > 10 then 10 else ps.sync + 2) := by
  rw [pocsag_rx_cw_eq_track, pocsag_rx_track_sync]

theorem pocsag_rx_cw_cw_bits (ps : pocsag) : (pocsag_rx_cw ps).cw_bits = ps.cw_bits := by
  rw [pocsag_rx_cw_eq_track, pocsag_rx_track_cw_bits]

theorem pocsag_rx_bit_sync_range (ps : pocsag) (bit : Nat)
    (h : 0 ≤ ps.sync ∧ ps.sync ≤ 10) :
    0 ≤ (pocsag_rx_bit ps bit).sync ∧ (pocsag_rx_bit ps bit).sync ≤ 10 := by
  unfold pocsag_rx_bit
  simp only []
  split_ifs
  · simpa using h
  · simp [SYNC_MAX]
  · simpa using h
  · rw [pocsag_rx_cw_sync]
    simp only []
    split_ifs <;> omega

theorem pocsag_run_sync_range (bits : List Nat) : ∀ ps : pocsag,
    0 ≤ ps.sync ∧ ps.sync ≤ 10 →
    0 ≤ (pocsag_run ps bits).sync ∧ (pocsag_run ps bits).sync ≤ 10 := by
  induction bits with
  | nil => intro ps h; exact h
  | cons bit bits ih =>
    intro ps h
    exact ih _ (pocsag_rx_bit_sync_range ps bit h)

theorem pocsag_run_nil (ps : pocsag) : pocsag_run ps [] = ps := rfl

theorem pocsag_run_cons (ps : pocsag) (bit : Nat) (bits : List Nat) :
    pocsag_run ps (bit :: bits) = pocsag_run (pocsag_rx_bit ps bit) bits := rfl

theorem pocsag_run_append (ps : pocsag) (l₁ l₂ : List Nat) :
    pocsag_run ps (l₁ ++ l₂) = pocsag_run (pocsag_run ps l₁) l₂ := by
  unfold pocsag_run; exact List.foldl_append _ _ _ _

theorem shift_in_nil (c : Nat) : shift_in c [] = c := rfl

theorem shift_in_cons (c bit : Nat) (bits : List Nat) :
    shift_in c (bit :: bits) = shift_in (((c <<< 1) % 2 ^ 32) ||| bit) bits := rfl

theorem shift_in_append (c : Nat) (l₁ l₂ : List Nat) :
    shift_in c (l₁ ++ l₂) = shift_in (shift_in c l₁) l₂ := by
  unfold shift_in; exact List.foldl_append _ _ _ _

/-- Inside a codeword (the bit counter does not reach 32) a synced decoder only shifts. -/
theorem pocsag_rx_bit_inside (ps : pocsag) (bit : Nat) (hs : ps.sync ≠ 0)
    (hcb : ps.cw_bits + 1 ≠ 32) :
    pocsag_rx_bit ps bit =
      { ps with cw := ((ps.cw <<< 1) % 2 ^ 32) ||| bit, b := ps.b + 1,
                cw_bits := ps.cw_bits + 1 } := by
  unfold pocsag_rx_bit
  simp only []
  rw [if_neg hs, if_pos hcb]

/-- At the last bit of a codeword a synced decoder processes the completed codeword. -/
theorem pocsag_rx_bit_boundary (ps : pocsag) (bit : Nat) (hs : ps.sync ≠ 0)
    (hcb : ps.cw_bits + 1 = 32) :
    pocsag_rx_bit ps bit =
      pocsag_rx_cw { ps with cw := ((ps.cw <<< 1) % 2 ^ 32) ||| bit, b := ps.b + 1,
                             cw_bits := 0 } := by
  unfold pocsag_rx_bit
  simp only []
  rw [if_neg hs, if_neg (by simpa using hcb)]

theorem pocsag_run_inside (bits : List Nat) : ∀ ps : pocsag, ps.sync ≠ 0 → 0 ≤ ps.cw_bits →
    ps.cw_bits + bits.length < 32 →
    pocsag_run ps bits =
      { ps with cw := shift_in ps.cw bits, b := ps.b + bits.length,
                cw_bits := ps.cw_bits + bits.length } := by
  induction bits with
  | nil => intro ps _ _ _; simp [pocsag_run_nil, shift_in_nil]
  | cons bit bits ih =>
    intro ps hs h0 hlen
    simp only [List.length_cons, Nat.cast_add, Nat.cast_one] at hlen
    rw [pocsag_run_cons, pocsag_rx_bit_inside ps bit hs (by omega)]
    refine (ih _ (by exact hs) (by show (0 : Int) ≤ ps.cw_bits + 1; omega)
      (by show ps.cw_bits + 1 + (bits.length : Int) < 32; omega)).trans ?_
    simp only [shift_in_cons, List.length_cons, Nat.cast_add, Nat.cast_one]
    congr 1 <;> omega

/-- A synced decoder at a codeword boundary that is fed 32 bits processes exactly the word
those bits spell. -/
theorem pocsag_run_word (bits : List Nat) (hlen : bits.length = 32) (ps : pocsag)
    (hs : ps.sync ≠ 0) (hcb : ps.cw_bits = 0) :
    pocsag_run ps bits =
      pocsag_rx_cw { ps with cw := shift_in ps.cw bits, b := ps.b + 32, cw_bits := 0 } := by
  obtain ⟨l, x, rfl⟩ : ∃ l x, bits = l ++ [x] := by
    rcases List.eq_nil_or_concat bits with h | ⟨l, x, h⟩
    · rw [h] at hlen; simp at hlen
    · exact ⟨l, x, by rw [h, List.concat_eq_append]⟩
  have hl : l.length = 31 := by simpa using hlen
  rw [pocsag_run_append, pocsag_run_inside l ps hs (by omega) (by rw [hcb, hl]; decide),
    pocsag_run_cons, pocsag_run_nil]
  refine (pocsag_rx_bit_boundary _ _ (by exact hs)
    (by show ps.cw_bits + (l.length : Int) + 1 = 32; rw [hcb, hl]; decide)).trans ?_
  simp only [shift_in_append, shift_in_cons, shift_in_nil, hl]
  congr 2
  omega

theorem word_bits_from_length (w : Nat) : ∀ k, (word_bits_from w k).length = k := by
  intro k
  induction k with
  | zero => rfl
  | succ k ih => simp [word_bits_from, ih]

theorem word_bits_length (w : Nat) : (word_bits w).length = 32 := word_bits_from_length w 32

theorem shift_one_eq (c bit : Nat) (hb : bit ≤ 1) :
    ((c <<< 1) % 2 ^ 32) ||| bit = (2 * c) % 2 ^ 32 + bit := by
  have h : (c <<< 1) % 2 ^ 32 = 2 ^ 1 * (c % 2 ^ 31) := by
    rw [Nat.shiftLeft_eq]; omega
  rw [h, ← Nat.mul_add_lt_is_or (by omega : bit < 2 ^ 1)]
  omega

theorem shift_in_word_bits_from (w : Nat) : ∀ k c,
    shift_in c (word_bits_from w k) % 2 ^ 32 = (c * 2 ^ k + w % 2 ^ k) % 2 ^ 32 := by
  intro k
  induction k with
  | zero => intro c; simp [word_bits_from, shift_in_nil, Nat.mod_one]
  | succ k ih =>
    intro c
    have hb : (w >>> k) &&& 1 = w / 2 ^ k % 2 := by
      rw [Nat.and_one_is_mod, Nat.shiftRight_eq_div_pow]
    rw [word_bits_from, shift_in_cons, ih, hb,
      shift_one_eq _ _ (by omega : w / 2 ^ k % 2 ≤ 1),
      show w % 2 ^ (k + 1) = w % 2 ^ k + 2 ^ k * (w / 2 ^ k % 2) from Nat.mod_pow_succ]
    have h1 : (2 * c % 2 ^ 32 + w / 2 ^ k % 2) * 2 ^ k + w % 2 ^ k
        = (2 * c % 2 ^ 32) * 2 ^ k + (w % 2 ^ k + 2 ^ k * (w / 2 ^ k % 2)) := by ring
    have h2 : c * 2 ^ (k + 1) + (w % 2 ^ k + 2 ^ k * (w / 2 ^ k % 2))
        = (2 * c) * 2 ^ k + (w % 2 ^ k + 2 ^ k * (w / 2 ^ k % 2)) := by ring
    rw [h1, h2]
    exact Nat.ModEq.add_right _ (Nat.ModEq.mul_right _ (Nat.mod_modEq _ _))

theorem shift_in_lt (bits : List Nat) : ∀ c, bits ≠ [] → (∀ b ∈ bits, b ≤ 1) →
    shift_in c bits < 2 ^ 32 := by
  induction bits with
  | nil => intro c h; exact absurd rfl h
  | cons bit bits ih =>
    intro c _ hb
    rw [shift_in_cons]
    have h1 : ((c <<< 1) % 2 ^ 32) ||| bit < 2 ^ 32 :=
      Nat.or_lt_two_pow (Nat.mod_lt _ (by decide))
        (lt_of_le_of_lt (hb bit (List.mem_cons_self _ _)) (by decide))
    cases bits with
    | nil => simpa [shift_in_nil] using h1
    | cons b2 rest =>
      exact ih _ (by simp) (fun b hm => hb b (List.mem_cons_of_mem _ hm))

theorem word_bits_from_le_one (w : Nat) : ∀ k, ∀ b ∈ word_bits_from w k, b ≤ 1 := by
  intro k
  induction k with
  | zero => intro b hb; simp [word_bits_from] at hb
  | succ k ih =>
    intro b hb
    simp only [word_bits_from, List.mem_cons] at hb
    rcases hb with rfl | hb
    · rw [Nat.and_one_is_mod]; omega
    · exact ih b hb

/-- Shifting the 32 bits of a 32-bit word into the register leaves exactly that word. -/
theorem shift_in_word_bits (w : Nat) (hw : w < 2 ^ 32) (c : Nat) :
    shift_in c (word_bits w) = w := by
  have h1 := shift_in_word_bits_from w 32 c
  have h2 : shift_in c (word_bits w) < 2 ^ 32 :=
    shift_in_lt _ c (by simp [word_bits, word_bits_from]) (word_bits_from_le_one w 32)
  unfold word_bits at h2 ⊢
  rw [Nat.mod_eq_of_lt h2] at h1
  rw [h1]
  omega

/-- Feeding the bits of the 32-bit word `w` to a synced decoder at a codeword boundary. -/
theorem pocsag_run_word_bits (w : Nat) (hw : w < 2 ^ 32) (ps : pocsag) (hs : ps.sync ≠ 0)
    (hcb : ps.cw_bits = 0) :
    pocsag_run ps (word_bits w) =
      pocsag_rx_cw { ps with cw := w, b := ps.b + 32, cw_bits := 0 } := by
  rw [pocsag_run_word _ (word_bits_length w) ps hs hcb, shift_in_word_bits w hw]

theorem final_syndrome_eq_zero_iff (cw : Nat) :
    final_syndrome cw = 0 ↔ bch_syndrome (bch_fix cw) = 0 := by
  unfold final_syndrome
  by_cases h : bch_syndrome cw = 0
  · rw [if_neg (by simpa using h), bch_fix_clean cw h]
  · rw [if_pos h]

/-- C7: a synced decoder (`1 ≤ sync ≤ 10`) receives the bit that completes the 32-bit
codeword `cw`: if `cw` is clean or corrected-clean the new confidence is
`min (sync + 2) 10`, if it is uncorrectable the new confidence is `sync - 1`. -/
theorem pocsag_rx_bit_confidence (ps : pocsag) (bit : Nat) (h1 : 1 ≤ ps.sync)
    (h2 : ps.sync ≤ 10) (hcb : ps.cw_bits = 31) :
    ((bch_syndrome (((ps.cw <<< 1) % 2 ^ 32) ||| bit) = 0 ∨
        bch_syndrome (bch_fix (((ps.cw <<< 1) % 2 ^ 32) ||| bit)) = 0) →
      (pocsag_rx_bit ps bit).sync = min (ps.sync + 2) 10) ∧
    (bch_syndrome (bch_fix (((ps.cw <<< 1) % 2 ^ 32) ||| bit)) ≠ 0 →
      (pocsag_rx_bit ps bit).sync = ps.sync - 1) := by
  rw [pocsag_rx_bit_boundary ps bit (by omega) (by rw [hcb]; decide), pocsag_rx_cw_sync]
  simp only []
  constructor
  · intro h
    have hz : final_syndrome (((ps.cw <<< 1) % 2 ^ 32) ||| bit) = 0 := by
      rcases h with h | h
      · unfold final_syndrome; rw [if_neg (by simpa using h)]; exact h
      · exact (final_syndrome_eq_zero_iff _).mpr h
    rw [if_neg (by simpa using hz)]
    split_ifs <;> omega
  · intro h
    have hz : final_syndrome (((ps.cw <<< 1) % 2 ^ 32) ||| bit) ≠ 0 :=
      fun e => h ((final_syndrome_eq_zero_iff _).mp e)
    rw [if_pos hz]
    split_ifs <;> omega

theorem pocsag_rx_bit_confidence_witness :
    ((bch_syndrome (((pocsag.cw { pocsag_init with sync := 10, cw_bits := 31, cw := 0x3e690aec }
          <<< 1) % 2 ^ 32) ||| 0) = 0 ∨
        bch_syndrome (bch_fix (((pocsag.cw
          { pocsag_init with sync := 10, cw_bits := 31, cw := 0x3e690aec } <<< 1) % 2 ^ 32)
            ||| 0)) = 0) →
      (pocsag_rx_bit { pocsag_init with sync := 10, cw_bits := 31, cw := 0x3e690aec } 0).sync
        = min ((10 : Int) + 2) 10) ∧
    (bch_syndrome (bch_fix (((pocsag.cw
        { pocsag_init with sync := 10, cw_bits := 31, cw := 0x3e690aec } <<< 1) % 2 ^ 32)
          ||| 0)) ≠ 0 →
      (pocsag_rx_bit { pocsag_init with sync := 10, cw_bits := 31, cw := 0x3e690aec } 0).sync
        = (10 : Int) - 1) :=
  pocsag_rx_bit_confidence { pocsag_init with sync := 10, cw_bits := 31, cw := 0x3e690aec } 0
    (by decide) (by decide) (by decide)

/-! ## Sync acquisition -/

theorem pocsag_rx_bit_scan_hit (ps : pocsag) (bit : Nat) (hs : ps.sync = 0)
    (hc : ((ps.cw <<< 1) % 2 ^ 32) ||| bit = POCSAG_SYNC) :
    pocsag_rx_bit ps bit =
      { ps with cw := 0, b := ps.b + 1, sync := SYNC_MAX, cw_bits := 0, cw_num := 0 } := by
  unfold pocsag_rx_bit
  simp only []
  rw [if_pos hs, if_neg (by simpa using hc)]

theorem pocsag_rx_bit_scan_miss (ps : pocsag) (bit : Nat) (hs : ps.sync = 0)
    (hc : ((ps.cw <<< 1) % 2 ^ 32) ||| bit ≠ POCSAG_SYNC) :
    pocsag_rx_bit ps bit = { ps with cw := ((ps.cw <<< 1) % 2 ^ 32) ||| bit, b := ps.b + 1 } := by
  unfold pocsag_rx_bit
  simp only []
  rw [if_pos hs, if_pos hc]

/-- While scanning, a run of at most 32 bits that ends with the register equal to the sync
constant leaves the decoder synced with full confidence. -/
theorem pocsag_run_scan (bits : List Nat) : ∀ ps : pocsag, ps.sync = 0 → bits.length ≤ 32 →
    bits ≠ [] → shift_in ps.cw bits = POCSAG_SYNC → (pocsag_run ps bits).sync = 10 := by
  induction bits with
  | nil => intro ps _ _ h; exact absurd rfl h
  | cons bit bits ih =>
    intro ps hs hlen _ hsh
    rw [pocsag_run_cons]
    simp only [List.length_cons] at hlen
    by_cases hc : ((ps.cw <<< 1) % 2 ^ 32) ||| bit = POCSAG_SYNC
    · rw [pocsag_rx_bit_scan_hit ps bit hs hc, pocsag_run_inside bits _ (by simp [SYNC_MAX])
        (by simp) (by simp only []; omega)]
      simp [SYNC_MAX]
    · rw [pocsag_rx_bit_scan_miss ps bit hs hc]
      rw [shift_in_cons] at hsh
      cases bits with
      | nil => exact absurd hsh hc
      | cons b2 rest =>
        exact ih _ hs (by omega) (by simp) hsh

/-- C8: from any decoder state with `sync = 0`, feeding the 32 bits of the sync constant
`0x7CD215D8` most significant bit first leaves the decoder synced with `sync = 10`. -/
theorem pocsag_sync_acquire (ps : pocsag) (hs : ps.sync = 0) :
    (pocsag_run ps (word_bits POCSAG_SYNC)).sync = 10 :=
  pocsag_run_scan _ ps hs (le_of_eq (word_bits_length _)) (by simp [word_bits, word_bits_from])
    (shift_in_word_bits POCSAG_SYNC (by decide) ps.cw)

theorem pocsag_sync_acquire_witness :
    (pocsag_run pocsag_init (word_bits POCSAG_SYNC)).sync = 10 :=
  pocsag_sync_acquire pocsag_init (by decide)

/-! ## Sync loss -/

theorem pocsag_txt_rev_eq_bitrev7 : ∀ c < 128, pocsag_txt_rev c = bitrev7 c := by decide!

theorem pocsag_run_sync_word :
    pocsag_run pocsag_init (word_bits POCSAG_SYNC) =
      { b := 32, sync := 10, cw := 0, cw_bits := 0, cw_num := 0, txt_active := 0,
        txt := pocsag_txt_init } := by decide!

theorem testBit_31_and (cw : Nat) : cw &&& (1 <<< 31) ≠ 0 ↔ cw.testBit 31 = true := by
  rw [Nat.one_shiftLeft]; exact and_two_pow_ne_zero_iff cw 31

theorem replicate_256 : List.replicate POCSAG_TXT_LEN 0 = (0 : Nat) :: 0 :: List.replicate 254 0 := by
  show List.replicate (254 + 1 + 1) 0 = _
  rfl

theorem pocsag_txt_feed_loop_step (fuel : Nat) (pt : pocsag_txt) (h : pt.nb ≥ 7) :
    pocsag_txt_feed_loop (fuel + 1) pt =
      pocsag_txt_feed_loop fuel
        { pt with buf := pocsag_txt_store pt.buf pt.nc
                    (pocsag_txt_rev ((pt.bits >>> (pt.nb - 7).toNat) &&& 0x7f)),
                  nc := pt.nc + 1,
                  nb := pt.nb - 7 } := by
  rw [pocsag_txt_feed_loop, if_pos h]

theorem pocsag_txt_feed_loop_stop (fuel : Nat) (pt : pocsag_txt) (h : pt.nb < 7) :
    pocsag_txt_feed_loop fuel pt = pt := by
  cases fuel with
  | zero => rfl
  | succ fuel => rw [pocsag_txt_feed_loop, if_neg (by omega)]

theorem pocsag_txt_store_zero (x : Nat) (l : List Nat) (v : Nat) :
    pocsag_txt_store (x :: l) 0 v = v :: l := by
  unfold pocsag_txt_store POCSAG_TXT_LEN
  rw [if_pos (by decide)]
  rfl

theorem pocsag_txt_store_one (x y : Nat) (l : List Nat) (v : Nat) :
    pocsag_txt_store (x :: y :: l) 1 v = x :: v :: l := by
  unfold pocsag_txt_store POCSAG_TXT_LEN
  rw [if_pos (by decide)]
  rfl

theorem pocsag_txt_feed_first (d : Nat) (hd : d < 2 ^ 20) :
    pocsag_txt_feed pocsag_txt_init d =
      { bits := d, nb := 6, nc := 2,
        buf := bitrev7 (d >>> 13) :: bitrev7 ((d >>> 6) &&& 0x7f) :: List.replicate 254 0 } := by
  have h3 : d >>> 13 < 128 := by rw [Nat.shiftRight_eq_div_pow]; omega
  have h1 : (d >>> 13) &&& 0x7f = d >>> 13 :=
    Nat.and_pow_two_sub_one_of_lt_two_pow (show d >>> 13 < 2 ^ 7 from h3)
  have h2 : (d >>> 6) &&& 0x7f < 128 := Nat.and_lt_two_pow _ (by decide : 127 < 2 ^ 7)
  unfold pocsag_txt_feed pocsag_txt_init
  simp only [replicate_256, Nat.zero_shiftLeft, Nat.zero_mod, Nat.zero_or, Int.zero_add]
  have e20 : Int.toNat 20 = 17 + 1 + 1 + 1 := rfl
  rw [e20, pocsag_txt_feed_loop_step _ _ (by show (20 : Int) ≥ 7; decide)]
  simp only []
  rw [pocsag_txt_feed_loop_step _ _ (by show (20 : Int) - 7 ≥ 7; decide)]
  simp only []
  rw [pocsag_txt_feed_loop_stop _ _ (by show (20 : Int) - 7 - 7 < 7; decide)]
  have e13 : ((20 : Int) - 7).toNat = 13 := rfl
  have e6 : ((20 : Int) - 7 - 7).toNat = 6 := rfl
  have en : (20 : Int) - 7 - 7 = 6 := rfl
  have ec : (0 : Int) + 1 + 1 = 2 := rfl
  have ec1 : (0 : Int) + 1 = 1 := rfl
  rw [e13, e6, en, ec, ec1, h1, pocsag_txt_rev_eq_bitrev7 _ h3, pocsag_txt_rev_eq_bitrev7 _ h2,
    pocsag_txt_store_zero, pocsag_txt_store_one]

theorem pocsag_rx_classify_address_clean (ps : pocsag) (cw : Nat) (h1 : cw ≠ POCSAG_IDLE)
    (h2 : cw ≠ POCSAG_SYNC) (h3 : cw.testBit 31 = false) :
    pocsag_rx_classify ps cw 0 = { ps with txt := pocsag_txt_init, txt_active := 1 } := by
  unfold pocsag_rx_classify
  rw [if_neg h1, if_neg h2, if_neg (by rw [testBit_31_and, h3]; simp), if_pos rfl]

theorem pocsag_rx_classify_message (ps : pocsag) (cw syn : Nat) (h3 : cw.testBit 31 = true)
    (ha : ps.txt_active ≠ 0) :
    pocsag_rx_classify ps cw syn =
      { ps with txt := pocsag_txt_feed ps.txt ((cw >>> 11) &&& 0xfffff) } := by
  have h1 : cw ≠ POCSAG_IDLE := by
    intro e; rw [e] at h3; exact absurd h3 (by decide)
  have h2 : cw ≠ POCSAG_SYNC := by
    intro e; rw [e] at h3; exact absurd h3 (by decide)
  unfold pocsag_rx_classify
  rw [if_neg h1, if_neg h2, if_pos ((testBit_31_and cw).mpr h3)]
  simp only []
  rw [if_pos ha]

theorem final_syndrome_clean (cw : Nat) (h : bch_syndrome cw = 0) : final_syndrome cw = 0 := by
  unfold final_syndrome
  rw [if_neg (by simpa using h)]
  exact h

theorem fixed_cw_clean (cw : Nat) (h : bch_syndrome cw = 0) : fixed_cw cw = cw := by
  unfold fixed_cw
  rw [if_neg (by simpa using h)]

/-- C10: starting from `pocsag_init`, feeding the sync word, a clean address codeword `a`
and a clean message codeword `m` (each most significant bit first) leaves a message
session active whose text buffer holds exactly two characters, the bit reversals of the
first and the second 7-bit group of the payload `d = (m >> 11) & 0xFFFFF`, with 6 bits
pending; a payload whose top 7 bits are `0001001` gives the first byte `0x48`. -/
theorem pocsag_end_to_end (a m : Nat) (ha : a < 2 ^ 32) (hm : m < 2 ^ 32)
    (ha31 : a.testBit 31 = false) (has : bch_syndrome a = 0) (hai : a ≠ POCSAG_IDLE)
    (hasy : a ≠ POCSAG_SYNC) (hm31 : m.testBit 31 = true) (hms : bch_syndrome m = 0) :
    (pocsag_run pocsag_init
        (word_bits POCSAG_SYNC ++ word_bits a ++ word_bits m)).txt_active = 1 ∧
    (pocsag_run pocsag_init (word_bits POCSAG_SYNC ++ word_bits a ++ word_bits m)).txt =
      { bits := (m >>> 11) &&& 0xfffff, nb := 6, nc := 2,
        buf := bitrev7 (((m >>> 11) &&& 0xfffff) >>> 13) ::
               bitrev7 ((((m >>> 11) &&& 0xfffff) >>> 6) &&& 0x7f) :: List.replicate 254 0 } ∧
    ((((m >>> 11) &&& 0xfffff) >>> 13 = 0b0001001) →
      (pocsag_run pocsag_init
        (word_bits POCSAG_SYNC ++ word_bits a ++ word_bits m)).txt.buf.head? = some 0x48) := by
  have hd : (m >>> 11) &&& 0xfffff < 2 ^ 20 := Nat.and_lt_two_pow _ (by decide)
  have h2 : pocsag_run
      { b := 32, sync := 10, cw := 0, cw_bits := 0, cw_num := 0, txt_active := 0,
        txt := pocsag_txt_init } (word_bits a) =
      { b := 64, sync := 10, cw := a, cw_bits := 0, cw_num := 1, txt_active := 1,
        txt := pocsag_txt_init } := by
    rw [pocsag_run_word_bits a ha _ (by decide) rfl, pocsag_rx_cw_eq_track]
    simp only []
    rw [final_syndrome_clean a has, fixed_cw_clean a has,
      pocsag_rx_track_batch _ _ _ (by simp) (by simp),
      pocsag_rx_classify_address_clean _ a hai hasy ha31]
    simp
  have h3 : pocsag_run
      { b := 64, sync := 10, cw := a, cw_bits := 0, cw_num := 1, txt_active := 1,
        txt := pocsag_txt_init } (word_bits m) =
      { b := 96, sync := 10, cw := m, cw_bits := 0, cw_num := 2, txt_active := 1,
        txt := pocsag_txt_feed pocsag_txt_init ((m >>> 11) &&& 0xfffff) } := by
    rw [pocsag_run_word_bits m hm _ (by simp) rfl, pocsag_rx_cw_eq_track]
    simp only []
    rw [final_syndrome_clean m hms, fixed_cw_clean m hms,
      pocsag_rx_track_batch _ _ _ (by simp) (by simp),
      pocsag_rx_classify_message _ m 0 hm31 (by simp)]
    simp
  rw [pocsag_run_append, pocsag_run_append, pocsag_run_sync_word, h2, h3,
    pocsag_txt_feed_first _ hd]
  refine ⟨rfl, rfl, ?_⟩
  intro h9
  rw [h9]
  show some (bitrev7 9) = some 0x48
  decide

theorem pocsag_end_to_end_witness :
    (pocsag_run pocsag_init
        (word_bits POCSAG_SYNC ++ word_bits 0 ++ word_bits 0x899605e0)).txt_active = 1 ∧
    (pocsag_run pocsag_init (word_bits POCSAG_SYNC ++ word_bits 0 ++ word_bits 0x899605e0)).txt =
      { bits := (0x899605e0 >>> 11) &&& 0xfffff, nb := 6, nc := 2,
        buf := bitrev7 (((0x899605e0 >>> 11) &&& 0xfffff) >>> 13) ::
               bitrev7 ((((0x899605e0 >>> 11) &&& 0xfffff) >>> 6) &&& 0x7f) ::
               List.replicate 254 0 } ∧
    ((((0x899605e0 >>> 11) &&& 0xfffff) >>> 13 = 0b0001001) →
      (pocsag_run pocsag_init
        (word_bits POCSAG_SYNC ++ word_bits 0 ++ word_bits 0x899605e0)).txt.buf.head?
          = some 0x48) :=
  pocsag_end_to_end 0 0x899605e0 (by decide) (by decide) (by decide) (by decide) (by decide)
    (by decide) (by decide) (by decide)

/-! ## Classification of codewords -/

theorem bch_fix_eq_or_clean (x : Nat) : bch_fix x = x ∨ bch_syndrome (bch_fix x) = 0 := by
  cases e1 : bch_fix_loop1 x 32 0 with
  | some t =>
    obtain ⟨k, _, _, _, hz⟩ := bch_fix_loop1_some x 32 0 t e1
    have hf : bch_fix x = t := by unfold bch_fix; rw [e1]
    right; rw [hf]; exact hz
  | none =>
    cases e2 : bch_fix_loop2 x 32 0 with
    | some t =>
      obtain ⟨k, l, _, _, _, _, hz⟩ := bch_fix_loop2_some x 32 0 t (by omega) e2
      have hf : bch_fix x = t := by unfold bch_fix; rw [e1]; simp only [e2]
      right; rw [hf]; exact hz
    | none =>
      left; unfold bch_fix; rw [e1]; simp only [e2]

/-- The codeword that `pocsag_rx_bit` classifies is `bch_fix` of the received one. -/
theorem fixed_cw_eq_bch_fix (cw : Nat) : fixed_cw cw = bch_fix cw := by
  unfold fixed_cw
  by_cases h : bch_syndrome cw = 0
  · rw [if_neg (by simpa using h), bch_fix_clean cw h]
  · rw [if_pos h]

theorem final_syndrome_eq (cw : Nat) : final_syndrome cw = bch_syndrome (bch_fix cw) := by
  unfold final_syndrome
  by_cases h : bch_syndrome cw = 0
  · rw [if_neg (by simpa using h), bch_fix_clean cw h]
  · rw [if_pos h]

/-- The step of a synced decoder at the last bit of a codeword, in terms of the received
word `c`. -/
theorem pocsag_rx_bit_codeword (ps : pocsag) (bit : Nat) (hs : ps.sync ≠ 0)
    (hcb : ps.cw_bits = 31) :
    pocsag_rx_bit ps bit =
      pocsag_rx_track
        { ps with cw := ((ps.cw <<< 1) % 2 ^ 32) ||| bit, b := ps.b + 1, cw_bits := 0 }
        (bch_fix (((ps.cw <<< 1) % 2 ^ 32) ||| bit))
        (bch_syndrome (bch_fix (((ps.cw <<< 1) % 2 ^ 32) ||| bit))) := by
  rw [pocsag_rx_bit_boundary ps bit hs (by rw [hcb]; decide), pocsag_rx_cw_eq_track]
  simp only []
  rw [fixed_cw_eq_bch_fix, final_syndrome_eq]

theorem pocsag_rx_classify_idle (ps : pocsag) :
    pocsag_rx_classify ps POCSAG_IDLE 0 = { ps with txt_active := 0 } := by
  unfold pocsag_rx_classify
  rw [if_pos rfl, if_pos rfl]

theorem pocsag_rx_classify_txt_inactive (ps : pocsag) (cw syn : Nat)
    (h31 : cw.testBit 31 = true) (ha : ps.txt_active = 0) :
    (pocsag_rx_classify ps cw syn).txt = ps.txt := by
  have h1 : cw ≠ POCSAG_IDLE := by
    intro e; rw [e] at h31; exact absurd h31 (by decide)
  have h2 : cw ≠ POCSAG_SYNC := by
    intro e; rw [e] at h31; exact absurd h31 (by decide)
  unfold pocsag_rx_classify
  rw [if_neg h1, if_neg h2, if_pos ((testBit_31_and cw).mpr h31)]
  simp only []
  rw [if_neg (by simpa using ha)]

theorem pocsag_rx_classify_address_bad (ps : pocsag) (cw syn : Nat) (h1 : cw ≠ POCSAG_IDLE)
    (h2 : cw ≠ POCSAG_SYNC) (h3 : cw.testBit 31 = false) (hsyn : syn ≠ 0)
    (ha : ps.txt_active ≠ 0) :
    pocsag_rx_classify ps cw syn =
      { ps with txt := pocsag_txt_feed ps.txt ((cw >>> 11) &&& 0xfffff) } := by
  unfold pocsag_rx_classify
  rw [if_neg h1, if_neg h2, if_neg (by rw [testBit_31_and, h3]; simp), if_neg hsyn, if_pos ha]

/-- With no session active, classification changes neither the text assembler nor
`txt_active`, unless the codeword is a clean address codeword. -/
theorem pocsag_rx_classify_quiet (ps : pocsag) (cw syn : Nat) (ha : ps.txt_active = 0)
    (h : ¬ (syn = 0 ∧ cw.testBit 31 = false ∧ cw ≠ POCSAG_IDLE ∧ cw ≠ POCSAG_SYNC)) :
    (pocsag_rx_classify ps cw syn).txt = ps.txt ∧
    (pocsag_rx_classify ps cw syn).txt_active = 0 := by
  unfold pocsag_rx_classify
  by_cases h1 : cw = POCSAG_IDLE
  · rw [if_pos h1]
    by_cases hz : syn = 0
    · rw [if_pos hz]; exact ⟨rfl, rfl⟩
    · rw [if_neg hz]; exact ⟨rfl, ha⟩
  · rw [if_neg h1]
    by_cases h2 : cw = POCSAG_SYNC
    · rw [if_pos h2]; exact ⟨rfl, ha⟩
    · rw [if_neg h2]
      by_cases h3 : cw &&& (1 <<< 31) ≠ 0
      · rw [if_pos h3]
        simp only []
        rw [if_neg (by simpa using ha)]
        exact ⟨rfl, ha⟩
      · rw [if_neg h3]
        have h31 : cw.testBit 31 = false := by
          rw [testBit_31_and] at h3
          simpa using h3
        have hz : syn ≠ 0 := fun hz => h ⟨hz, h31, h1, h2⟩
        rw [if_neg hz, if_neg (by simpa using ha)]
        exact ⟨rfl, ha⟩

/-- With no session active, a call of `pocsag_rx_bit` that is not a clean address step
changes neither the text assembler nor `txt_active`. -/
theorem pocsag_rx_bit_quiet (ps : pocsag) (bit : Nat) (ha : ps.txt_active = 0)
    (hq : clean_address_step ps bit = false) :
    (pocsag_rx_bit ps bit).txt = ps.txt ∧ (pocsag_rx_bit ps bit).txt_active = 0 := by
  by_cases hs : ps.sync = 0
  · by_cases hc : ((ps.cw <<< 1) % 2 ^ 32) ||| bit = POCSAG_SYNC
    · rw [pocsag_rx_bit_scan_hit ps bit hs hc]; exact ⟨rfl, ha⟩
    · rw [pocsag_rx_bit_scan_miss ps bit hs hc]; exact ⟨rfl, ha⟩
  · by_cases hcb : ps.cw_bits + 1 = 32
    · rw [pocsag_rx_bit_codeword ps bit hs (by omega)]
      simp only [clean_address_step, decide_eq_false_iff_not] at hq
      generalize bch_fix (((ps.cw <<< 1) % 2 ^ 32) ||| bit) = cw at hq ⊢
      generalize bch_syndrome cw = syn at hq ⊢
      by_cases hl : syn ≠ 0 ∧ ps.sync - 1 ≤ 0
      · rw [pocsag_rx_track_lost _ _ _ hl.1 (by exact hl.2)]; exact ⟨rfl, ha⟩
      · by_cases hn : ps.cw_num = -1
        · rw [pocsag_rx_track_pre _ _ _ (by exact hl) (by exact hn)]; exact ⟨rfl, ha⟩
        · rw [pocsag_rx_track_batch _ _ _ (by exact hl) (by exact hn)]
          exact pocsag_rx_classify_quiet _ cw syn (by exact ha)
            (fun hc => hq ⟨hs, hcb, hn, hc⟩)
    · rw [pocsag_rx_bit_inside ps bit hs hcb]; exact ⟨rfl, ha⟩

/-- With no session active, a run without a clean address step changes neither the text
assembler nor `txt_active`. -/
theorem pocsag_run_quiet (bits : List Nat) : ∀ ps : pocsag, ps.txt_active = 0 →
    no_clean_address ps bits = true →
    (pocsag_run ps bits).txt = ps.txt ∧ (pocsag_run ps bits).txt_active = 0 := by
  induction bits with
  | nil => intro ps ha _; exact ⟨rfl, ha⟩
  | cons bit bits ih =>
    intro ps ha hq
    simp only [no_clean_address, Bool.and_eq_true, Bool.not_eq_true'] at hq
    obtain ⟨h1, h2⟩ := pocsag_rx_bit_quiet ps bit ha hq.1
    obtain ⟨h3, h4⟩ := ih (pocsag_rx_bit ps bit) h2 hq.2
    rw [pocsag_run_cons]
    exact ⟨h3.trans h1, h4⟩

/-- C11: (a) a synced decoder with an active session, at a batch position other than the
pre-batch sentinel, that completes a codeword whose corrected value is the idle constant
ends the session (`txt_active = 0`); (b) a synced decoder with no active session that
completes a codeword whose corrected value has bit 31 set leaves the text assembler
unchanged and the session inactive; (c) in any state with no active session, a call of
`pocsag_rx_bit` other than one that completes a clean address codeword leaves the text
assembler unchanged and the session inactive; (d) hence so does every run of calls up to
the next clean address codeword. -/
theorem pocsag_idle_ends_session :
    (∀ (ps : pocsag) (bit : Nat), 1 ≤ ps.sync → ps.sync ≤ 10 → ps.cw_bits = 31 →
      (ps.txt_active ≠ 0 ∧ ps.cw_num ≠ -1 ∧
          bch_fix (((ps.cw <<< 1) % 2 ^ 32) ||| bit) = POCSAG_IDLE) →
        (pocsag_rx_bit ps bit).txt_active = 0) ∧
    (∀ (ps : pocsag) (bit : Nat), 1 ≤ ps.sync → ps.sync ≤ 10 → ps.cw_bits = 31 →
      (ps.txt_active = 0 ∧
          (bch_fix (((ps.cw <<< 1) % 2 ^ 32) ||| bit)).testBit 31 = true) →
        (pocsag_rx_bit ps bit).txt = ps.txt ∧ (pocsag_rx_bit ps bit).txt_active = 0) ∧
    (∀ (ps : pocsag) (bit : Nat), ps.txt_active = 0 → clean_address_step ps bit = false →
      (pocsag_rx_bit ps bit).txt = ps.txt ∧ (pocsag_rx_bit ps bit).txt_active = 0) ∧
    (∀ (ps : pocsag) (bits : List Nat), ps.txt_active = 0 →
      no_clean_address ps bits = true →
      (pocsag_run ps bits).txt = ps.txt ∧ (pocsag_run ps bits).txt_active = 0) := by
  refine ⟨?_, ?_, pocsag_rx_bit_quiet, fun ps bits => pocsag_run_quiet bits ps⟩
  · rintro ps bit h1 _ hcb ⟨_, hn, hidle⟩
    rw [pocsag_rx_bit_codeword ps bit (by omega) hcb]
    rw [hidle, show bch_syndrome POCSAG_IDLE = 0 by decide,
      pocsag_rx_track_batch _ _ _ (by simp) (by exact hn), pocsag_rx_classify_idle]
  · rintro ps bit h1 _ hcb ⟨ha, h31⟩
    apply pocsag_rx_bit_quiet ps bit ha
    simp only [clean_address_step, decide_eq_false_iff_not]
    rintro ⟨_, _, _, _, h, _⟩
    rw [h31] at h
    exact absurd h (by decide)

theorem pocsag_idle_ends_session_witness :
    (pocsag_rx_bit { pocsag_init with sync := 10, cw_bits := 31, txt_active := 1,
                                      cw := 0x3d44e0cb } 1).txt_active = 0 ∧
    ((pocsag_rx_bit { pocsag_init with sync := 10, cw_bits := 31, cw := 0x44cb02f0 } 0).txt
        = pocsag_txt_init ∧
      (pocsag_rx_bit { pocsag_init with sync := 10, cw_bits := 31,
                                        cw := 0x44cb02f0 } 0).txt_active = 0) :=
  ⟨pocsag_idle_ends_session.1
    { pocsag_init with sync := 10, cw_bits := 31, txt_active := 1, cw := 0x3d44e0cb } 1
    (by decide) (by decide) (by decide) ⟨by decide, by decide, by decide!⟩,
   pocsag_idle_ends_session.2.1
    { pocsag_init with sync := 10, cw_bits := 31, cw := 0x44cb02f0 } 0
    (by decide) (by decide) (by decide) ⟨by decide, by decide!⟩⟩

/-- C14 fails as stated: a synced decoder with `sync = 1` and an active session that
completes the uncorrectable word `7` loses sync but keeps `txt_active = 1`. -/
theorem pocsag_lost_sync_session_counterexample :
    bch_syndrome (bch_fix (((3 <<< 1) % 2 ^ 32) ||| 1)) ≠ 0 ∧
    (pocsag_rx_bit { pocsag_init with sync := 1, cw_bits := 31, txt_active := 1, cw := 3 }
      1).sync = 0 ∧
    ¬ ((pocsag_rx_bit { pocsag_init with sync := 1, cw_bits := 31, txt_active := 1, cw := 3 }
      1).txt_active = 0) := by decide!

/-- C14 (amended): when an uncorrectable codeword brings a synced decoder with `sync = 1`
to `sync = 0`, only `sync` is reset: the message session (`txt_active` and the text
assembler) is left as it was; and a scanning decoder (`sync = 0`) never touches the
session either, so it is still there after a later re-synchronisation. -/
theorem pocsag_lost_sync_session (ps : pocsag) (bit : Nat) :
    ((ps.sync = 1 ∧ ps.cw_bits = 31 ∧
        bch_syndrome (bch_fix (((ps.cw <<< 1) % 2 ^ 32) ||| bit)) ≠ 0) →
      (pocsag_rx_bit ps bit).sync = 0 ∧
      (pocsag_rx_bit ps bit).txt_active = ps.txt_active ∧
      (pocsag_rx_bit ps bit).txt = ps.txt) ∧
    (ps.sync = 0 →
      (pocsag_rx_bit ps bit).txt_active = ps.txt_active ∧
      (pocsag_rx_bit ps bit).txt = ps.txt) := by
  constructor
  · rintro ⟨hs, hcb, hu⟩
    rw [pocsag_rx_bit_codeword ps bit (by omega) hcb,
      pocsag_rx_track_lost _ _ _ hu (by show ps.sync - 1 ≤ 0; omega)]
    exact ⟨rfl, rfl, rfl⟩
  · intro hs
    by_cases hc : ((ps.cw <<< 1) % 2 ^ 32) ||| bit = POCSAG_SYNC
    · rw [pocsag_rx_bit_scan_hit ps bit hs hc]
      exact ⟨rfl, rfl⟩
    · rw [pocsag_rx_bit_scan_miss ps bit hs hc]
      exact ⟨rfl, rfl⟩

theorem pocsag_lost_sync_session_witness :
    (pocsag_rx_bit { pocsag_init with sync := 1, cw_bits := 31, txt_active := 1, cw := 3 }
        1).sync = 0 ∧
    (pocsag_rx_bit { pocsag_init with sync := 1, cw_bits := 31, txt_active := 1, cw := 3 }
        1).txt_active = 1 ∧
    (pocsag_rx_bit { pocsag_init with sync := 1, cw_bits := 31, txt_active := 1, cw := 3 }
        1).txt = pocsag_txt_init :=
  (pocsag_lost_sync_session
    { pocsag_init with sync := 1, cw_bits := 31, txt_active := 1, cw := 3 } 1).1
    ⟨by decide, by decide, by decide!⟩

/-- C15 fails as stated: the scanning decoder whose window becomes the sync constant
(register `0x3E690AEC`, next bit 0) ends with `cw_num = 0`, not the sentinel `-1`. -/
theorem pocsag_sync_cw_num_counterexample :
    (pocsag.sync { pocsag_init with cw := 0x3e690aec }) = 0 ∧
    ((0x3e690aec <<< 1) % 2 ^ 32) ||| 0 = POCSAG_SYNC ∧
    ¬ ((pocsag_rx_bit { pocsag_init with cw := 0x3e690aec } 0).cw_num = -1) := by decide

/-- C15 (amended): when the window of a scanning decoder becomes the sync constant,
`pocsag_rx_bit` sets `sync = 10`, resets the codeword accumulator and bit counter to zero
and sets `cw_num` to 0; the codeword that follows is therefore handled as the codeword at
batch position 0, after which `cw_num = 1`. -/
theorem pocsag_sync_cw_num (ps : pocsag) (bit : Nat) (hs : ps.sync = 0)
    (hc : ((ps.cw <<< 1) % 2 ^ 32) ||| bit = POCSAG_SYNC) :
    (pocsag_rx_bit ps bit).sync = 10 ∧ (pocsag_rx_bit ps bit).cw = 0 ∧
    (pocsag_rx_bit ps bit).cw_bits = 0 ∧ (pocsag_rx_bit ps bit).cw_num = 0 ∧
    ∀ w, w < 2 ^ 32 → (pocsag_run (pocsag_rx_bit ps bit) (word_bits w)).cw_num = 1 := by
  rw [pocsag_rx_bit_scan_hit ps bit hs hc]
  refine ⟨rfl, rfl, rfl, rfl, ?_⟩
  intro w hw
  rw [pocsag_run_word_bits w hw _ (by simp [SYNC_MAX]) rfl, pocsag_rx_cw_eq_track,
    pocsag_rx_track_batch _ _ _ (by simp [SYNC_MAX]) (by simp)]
  rfl

theorem pocsag_sync_cw_num_witness :
    (pocsag_rx_bit { pocsag_init with cw := 0x3e690aec } 0).sync = 10 ∧
    (pocsag_rx_bit { pocsag_init with cw := 0x3e690aec } 0).cw = 0 ∧
    (pocsag_rx_bit { pocsag_init with cw := 0x3e690aec } 0).cw_bits = 0 ∧
    (pocsag_rx_bit { pocsag_init with cw := 0x3e690aec } 0).cw_num = 0 ∧
    ∀ w, w < 2 ^ 32 →
      (pocsag_run (pocsag_rx_bit { pocsag_init with cw := 0x3e690aec } 0)
        (word_bits w)).cw_num = 1 :=
  pocsag_sync_cw_num { pocsag_init with cw := 0x3e690aec } 0 (by decide) (by decide)

/-- C16: a synced decoder at a batch position other than the pre-batch sentinel completes
a codeword whose corrected value is an address codeword (bit 31 clear, neither the idle nor
the sync constant) with zero syndrome: afterwards `txt_active = 1` and the text assembler
is in the `pocsag_txt_init` state, whatever session existed before. -/
theorem pocsag_address_starts_session (ps : pocsag) (bit : Nat) (h1 : 1 ≤ ps.sync)
    (h2 : ps.sync ≤ 10) (hcb : ps.cw_bits = 31) (hn : ps.cw_num ≠ -1)
    (h31 : (bch_fix (((ps.cw <<< 1) % 2 ^ 32) ||| bit)).testBit 31 = false)
    (hi : bch_fix (((ps.cw <<< 1) % 2 ^ 32) ||| bit) ≠ POCSAG_IDLE)
    (hsy : bch_fix (((ps.cw <<< 1) % 2 ^ 32) ||| bit) ≠ POCSAG_SYNC)
    (hz : bch_syndrome (bch_fix (((ps.cw <<< 1) % 2 ^ 32) ||| bit)) = 0) :
    (pocsag_rx_bit ps bit).txt_active = 1 ∧ (pocsag_rx_bit ps bit).txt = pocsag_txt_init := by
  rw [pocsag_rx_bit_codeword ps bit (by omega) hcb, hz,
    pocsag_rx_track_batch _ _ _ (by simp) (by exact hn),
    pocsag_rx_classify_address_clean _ _ hi hsy h31]
  exact ⟨rfl, rfl⟩

theorem pocsag_address_starts_session_witness :
    (pocsag_rx_bit
      { pocsag_init with
        sync := 10, cw_bits := 31, txt_active := 1,
        txt := pocsag_txt_feed pocsag_txt_init 0x132c0 } 0).txt_active = 1 ∧
    (pocsag_rx_bit
      { pocsag_init with
        sync := 10, cw_bits := 31, txt_active := 1,
        txt := pocsag_txt_feed pocsag_txt_init 0x132c0 } 0).txt = pocsag_txt_init :=
  pocsag_address_starts_session
    { pocsag_init with
      sync := 10, cw_bits := 31, txt_active := 1,
      txt := pocsag_txt_feed pocsag_txt_init 0x132c0 } 0
    (by decide) (by decide) (by decide) (by decide) (by decide!) (by decide!) (by decide!)
    (by decide!)

/-- C17: a synced decoder with `sync ≥ 2`, an active session and a batch position other
than the pre-batch sentinel completes an uncorrectable codeword `cw` with bit 31 clear:
the 20-bit field `(cw >> 11) & 0xFFFFF` is fed to the text assembler and the session stays
active. -/
theorem pocsag_bad_address_feeds (ps : pocsag) (bit : Nat) (h1 : 2 ≤ ps.sync)
    (h2 : ps.sync ≤ 10) (hcb : ps.cw_bits = 31) (ha : ps.txt_active ≠ 0)
    (hn : ps.cw_num ≠ -1)
    (hu : bch_syndrome (bch_fix (((ps.cw <<< 1) % 2 ^ 32) ||| bit)) ≠ 0)
    (h31 : ((((ps.cw <<< 1) % 2 ^ 32) ||| bit)).testBit 31 = false) :
    (pocsag_rx_bit ps bit).txt =
      pocsag_txt_feed ps.txt ((((((ps.cw <<< 1) % 2 ^ 32) ||| bit)) >>> 11) &&& 0xfffff) ∧
    (pocsag_rx_bit ps bit).txt_active = ps.txt_active := by
  have hfix : bch_fix (((ps.cw <<< 1) % 2 ^ 32) ||| bit) = ((ps.cw <<< 1) % 2 ^ 32) ||| bit := by
    rcases bch_fix_eq_or_clean (((ps.cw <<< 1) % 2 ^ 32) ||| bit) with h | h
    · exact h
    · exact absurd h hu
  rw [pocsag_rx_bit_codeword ps bit (by omega) hcb]
  rw [hfix] at hu ⊢
  have hi : ((ps.cw <<< 1) % 2 ^ 32) ||| bit ≠ POCSAG_IDLE := by
    intro e; rw [e] at hu; exact hu (by decide)
  have hsy : ((ps.cw <<< 1) % 2 ^ 32) ||| bit ≠ POCSAG_SYNC := by
    intro e; rw [e] at hu; exact hu (by decide)
  rw [pocsag_rx_track_batch _ _ _ (by simp only []; omega) (by exact hn),
    pocsag_rx_classify_address_bad _ _ _ hi hsy h31 hu (by exact ha)]
  exact ⟨rfl, rfl⟩

theorem pocsag_bad_address_feeds_witness :
    (pocsag_rx_bit { pocsag_init with sync := 10, cw_bits := 31, txt_active := 1, cw := 3 }
        1).txt = pocsag_txt_feed pocsag_txt_init ((((((3 <<< 1) % 2 ^ 32) ||| 1)) >>> 11)
          &&& 0xfffff) ∧
    (pocsag_rx_bit { pocsag_init with sync := 10, cw_bits := 31, txt_active := 1, cw := 3 }
        1).txt_active = 1 :=
  pocsag_bad_address_feeds
    { pocsag_init with sync := 10, cw_bits := 31, txt_active := 1, cw := 3 } 1
    (by decide) (by decide) (by decide) (by decide) (by decide) (by decide!) (by decide)

/-! ## Batch position -/

theorem pocsag_rx_track_cw_num (ps : pocsag) (cw syn : Nat) :
    (pocsag_rx_track ps cw syn).cw_num =
      if syn ≠ 0 ∧ ps.sync - 1 ≤ 0 then ps.cw_num
      else if ps.cw_num = -1 then 0
      else if ps.cw_num + 1 = 16 then -1 else ps.cw_num + 1 := by
  by_cases h : syn ≠ 0 ∧ ps.sync - 1 ≤ 0
  · rw [pocsag_rx_track_lost ps cw syn h.1 h.2, if_pos h]
  · by_cases hn : ps.cw_num = -1
    · rw [pocsag_rx_track_pre ps cw syn h hn, if_neg h, if_pos hn]
    · rw [pocsag_rx_track_batch ps cw syn h hn, if_neg h, if_neg hn]

theorem pocsag_rx_bit_cw_num_range (ps : pocsag) (bit : Nat)
    (h : -1 ≤ ps.cw_num ∧ ps.cw_num ≤ 15) :
    -1 ≤ (pocsag_rx_bit ps bit).cw_num ∧ (pocsag_rx_bit ps bit).cw_num ≤ 15 := by
  unfold pocsag_rx_bit
  simp only []
  split_ifs
  · simpa using h
  · simp
  · simpa using h
  · rw [pocsag_rx_cw_eq_track, pocsag_rx_track_cw_num]
    simp only []
    split_ifs <;> omega

theorem pocsag_run_cw_num_range (bits : List Nat) : ∀ ps : pocsag,
    (-1 ≤ ps.cw_num ∧ ps.cw_num ≤ 15) →
    -1 ≤ (pocsag_run ps bits).cw_num ∧ (pocsag_run ps bits).cw_num ≤ 15 := by
  induction bits with
  | nil => intro ps h; exact h
  | cons bit bits ih =>
    intro ps h
    exact ih _ (pocsag_rx_bit_cw_num_range ps bit h)

/-! ## The protocol constants -/

/-- C20: the sync and idle constants have zero syndrome; hence a received word whose
corrected value is classified as idle has final syndrome zero, and the classification of
the idle constant always takes the `!syndrome` branch that clears `txt_active`. -/
theorem pocsag_constants_valid :
    bch_syndrome POCSAG_SYNC = 0 ∧ bch_syndrome POCSAG_IDLE = 0 ∧
    (∀ cw, fixed_cw cw = POCSAG_IDLE → final_syndrome cw = 0) ∧
    (∀ (ps : pocsag) (cw : Nat), fixed_cw cw = POCSAG_IDLE →
      pocsag_rx_classify ps (fixed_cw cw) (final_syndrome cw) = { ps with txt_active := 0 }) := by
  have h : ∀ cw, fixed_cw cw = POCSAG_IDLE → final_syndrome cw = 0 := by
    intro cw hc
    rw [final_syndrome_eq, ← fixed_cw_eq_bch_fix, hc]
    decide
  refine ⟨by decide, by decide, h, ?_⟩
  intro ps cw hc
  rw [h cw hc, hc, pocsag_rx_classify_idle]

theorem pocsag_constants_valid_witness :
    final_syndrome (POCSAG_IDLE ^^^ 0x80000001) = 0 :=
  pocsag_constants_valid.2.2.1 (POCSAG_IDLE ^^^ 0x80000001) (by decide!)

/-! ## Three-bit error patterns -/

/-- Four pairwise distinct bit positions never have remainders that cancel. -/
theorem core_tab_four (x y z k : Nat) (hx : x < 32) (hy : y < 32) (hz : z < 32) (hk : k < 32)
    (hxy : x ≠ y) (_hxz : x ≠ z) (_hxk : x ≠ k) (hyz : y ≠ z) (hyk : y ≠ k) (hzk : z ≠ k) :
    (core_tab.getD x 0 ^^^ core_tab.getD y 0)
      ^^^ (core_tab.getD z 0 ^^^ core_tab.getD k 0) ≠ 0 := by
  intro h
  rcases Nat.lt_or_gt_of_ne hxy with h1 | h1
  · rcases Nat.lt_or_gt_of_ne hzk with h2 | h2
    · have := core_tab_pairs x y z k h1 hy h2 hk h
      omega
    · rw [Nat.xor_comm (core_tab.getD z 0)] at h
      have := core_tab_pairs x y k z h1 hy h2 hz h
      omega
  · rw [Nat.xor_comm (core_tab.getD x 0)] at h
    rcases Nat.lt_or_gt_of_ne hzk with h2 | h2
    · have := core_tab_pairs y x z k h1 hx h2 hk h
      omega
    · rw [Nat.xor_comm (core_tab.getD z 0)] at h
      have := core_tab_pairs y x k z h1 hx h2 hz h
      omega

theorem xor3_cancel_first (a b c : Nat) : (a ^^^ b ^^^ c) ^^^ a = b ^^^ c := by
  have h : (a ^^^ b ^^^ c) ^^^ a = (a ^^^ a) ^^^ (b ^^^ c) := by ac_rfl
  rw [h]; simp

theorem xor3_cancel_second (a b c : Nat) : (a ^^^ b ^^^ c) ^^^ b = a ^^^ c := by
  have h : (a ^^^ b ^^^ c) ^^^ b = (b ^^^ b) ^^^ (a ^^^ c) := by ac_rfl
  rw [h]; simp

theorem xor3_cancel_third (a b c : Nat) : (a ^^^ b ^^^ c) ^^^ c = a ^^^ b := by
  rw [Nat.xor_cancel_right]

/-- Flipping one more bit of a three-bit pattern never gives a codeword. -/
theorem syn_triple_single {x y z k : Nat} (hx : x < 32) (hy : y < 32) (hz : z < 32)
    (hk : k < 32) (hxy : x ≠ y) (hxz : x ≠ z) (hyz : y ≠ z) :
    bch_syndrome ((2 ^ x ^^^ 2 ^ y ^^^ 2 ^ z) ^^^ 2 ^ k) ≠ 0 := by
  intro h
  by_cases e1 : k = x
  · subst e1
    rw [xor3_cancel_first] at h
    exact hyz ((syn_single hy hz).mp h)
  by_cases e2 : k = y
  · subst e2
    rw [xor3_cancel_second] at h
    exact hxz ((syn_single hx hz).mp h)
  by_cases e3 : k = z
  · subst e3
    rw [xor3_cancel_third] at h
    exact hxy ((syn_single hx hy).mp h)
  rw [bch_syndrome_eq_zero_iff, synd_core_xor, synd_core_xor, synd_core_xor,
    synd_core_two_pow x hx, synd_core_two_pow y hy, synd_core_two_pow z hz,
    synd_core_two_pow k hk, Nat.xor_assoc] at h
  exact core_tab_four x y z k hx hy hz hk hxy hxz (Ne.symm e1) hyz (Ne.symm e2) (Ne.symm e3) h.1

/-- A three-bit pattern with two more bits flipped has odd parity. -/
theorem syn_triple_pair {x y z k l : Nat} (hx : x < 32) (hy : y < 32) (hz : z < 32)
    (hkl : k < l) (hl : l < 32) :
    bch_syndrome ((2 ^ x ^^^ 2 ^ y ^^^ 2 ^ z) ^^^ (2 ^ k ||| 2 ^ l)) ≠ 0 := by
  intro h
  rw [bch_syndrome_eq_zero_iff, two_pow_or_eq_xor (Nat.ne_of_lt hkl), even_parity_xor,
    even_parity_xor, even_parity_xor, even_parity_xor, even_parity_two_pow x hx,
    even_parity_two_pow y hy, even_parity_two_pow z hz, even_parity_two_pow k (by omega),
    even_parity_two_pow l hl] at h
  exact absurd h.2 (by decide)

theorem syn_triple {x y z : Nat} (hx : x < 32) (hy : y < 32) (hz : z < 32) :
    bch_syndrome (2 ^ x ^^^ 2 ^ y ^^^ 2 ^ z) ≠ 0 := by
  intro h
  rw [bch_syndrome_eq_zero_iff, even_parity_xor, even_parity_xor, even_parity_two_pow x hx,
    even_parity_two_pow y hy, even_parity_two_pow z hz] at h
  exact absurd h.2 (by decide)

/-- A valid codeword with three distinct bits flipped is returned unchanged by `bch_fix`
and has a non-zero syndrome. -/
theorem bch_fix_three (w x y z : Nat) (hs : bch_syndrome w = 0) (hx : x < 32) (hy : y < 32)
    (hz : z < 32) (hxy : x ≠ y) (hxz : x ≠ z) (hyz : y ≠ z) :
    bch_fix (w ^^^ (2 ^ x ^^^ 2 ^ y ^^^ 2 ^ z)) = w ^^^ (2 ^ x ^^^ 2 ^ y ^^^ 2 ^ z) ∧
    bch_syndrome (w ^^^ (2 ^ x ^^^ 2 ^ y ^^^ 2 ^ z)) ≠ 0 := by
  have h1 : bch_fix_loop1 (w ^^^ (2 ^ x ^^^ 2 ^ y ^^^ 2 ^ z)) 32 0 = none := by
    apply bch_fix_loop1_none_of
    intro k _ hk hzero
    rw [Nat.one_shiftLeft, Nat.xor_assoc, bch_syndrome_xor_valid _ _ hs] at hzero
    exact syn_triple_single hx hy hz (by omega) hxy hxz hyz hzero
  have h2 : bch_fix_loop2 (w ^^^ (2 ^ x ^^^ 2 ^ y ^^^ 2 ^ z)) 32 0 = none := by
    apply bch_fix_loop2_none_of
    intro k l _ _ hkl hl hzero
    rw [Nat.one_shiftLeft, Nat.one_shiftLeft, Nat.xor_assoc,
      bch_syndrome_xor_valid _ _ hs] at hzero
    exact syn_triple_pair hx hy hz hkl hl hzero
  constructor
  · unfold bch_fix
    rw [h1]
    simp only [h2]
  · intro hzero
    rw [bch_syndrome_xor_valid _ _ hs] at hzero
    exact syn_triple hx hy hz hzero

theorem popcount32_eq_card (e : Nat) :
    popcount32 e = ((Finset.range 32).filter (fun i => e.testBit i = true)).card := by
  unfold popcount32
  rw [List.countP_eq_length_filter]
  simp only [Finset.card, Finset.filter, Finset.range, Multiset.range, Multiset.filter_coe,
    Multiset.coe_card]
  congr 1
  apply List.filter_congr
  intro i _
  simp

/-- A 32-bit word with exactly three set bits is the XOR of three distinct single bits. -/
theorem popcount32_three (e : Nat) (he : e < 2 ^ 32) (h : popcount32 e = 3) :
    ∃ x y z, x < 32 ∧ y < 32 ∧ z < 32 ∧ x ≠ y ∧ x ≠ z ∧ y ≠ z ∧
      e = 2 ^ x ^^^ 2 ^ y ^^^ 2 ^ z := by
  rw [popcount32_eq_card, Finset.card_eq_three] at h
  obtain ⟨x, y, z, hxy, hxz, hyz, hS⟩ := h
  have hmem : ∀ i, e.testBit i = true ↔ (i = x ∨ i = y ∨ i = z) := by
    intro i
    have hi : i ∈ (Finset.range 32).filter (fun i => e.testBit i = true)
        ↔ i ∈ ({x, y, z} : Finset Nat) := by rw [hS]
    simp only [Finset.mem_filter, Finset.mem_range, Finset.mem_insert,
      Finset.mem_singleton] at hi
    constructor
    · intro hb
      have hlt : i < 32 := by
        by_contra hge
        rw [testBit_false_of_lt he (by omega)] at hb
        exact absurd hb (by decide)
      exact hi.mp ⟨hlt, hb⟩
    · intro hc
      exact (hi.mpr hc).2
  have hlt : ∀ i, (i = x ∨ i = y ∨ i = z) → i < 32 := by
    intro i hc
    by_contra hge
    have hb := (hmem i).mpr hc
    rw [testBit_false_of_lt he (by omega)] at hb
    exact absurd hb (by decide)
  refine ⟨x, y, z, hlt x (Or.inl rfl), hlt y (Or.inr (Or.inl rfl)),
    hlt z (Or.inr (Or.inr rfl)), hxy, hxz, hyz, ?_⟩
  apply Nat.eq_of_testBit_eq
  intro i
  simp only [Nat.testBit_xor, Nat.testBit_two_pow]
  have hyx := Ne.symm hxy
  have hzx := Ne.symm hxz
  have hzy := Ne.symm hyz
  by_cases hb : e.testBit i = true
  · rw [hb]
    rcases (hmem i).mp hb with rfl | rfl | rfl
    · simp [hxy, hxz, hyz, hyx, hzx, hzy]
    · simp [hxy, hxz, hyz, hyx, hzx, hzy]
    · simp [hxy, hxz, hyz, hyx, hzx, hzy]
  · have hne : ¬ (i = x ∨ i = y ∨ i = z) := fun hc => hb ((hmem i).mpr hc)
    have hb' : e.testBit i = false := by simpa using hb
    have h1 : x ≠ i := fun e1 => hne (Or.inl e1.symm)
    have h2 : y ≠ i := fun e1 => hne (Or.inr (Or.inl e1.symm))
    have h3 : z ≠ i := fun e1 => hne (Or.inr (Or.inr e1.symm))
    rw [hb']
    simp [h1, h2, h3]

/-- C19: for a 32-bit word `w` with zero syndrome and an error pattern `e` with exactly
three set bits, `bch_fix (w ^ e)` returns `w ^ e` unchanged and the syndrome of `w ^ e` is
not zero: three-bit errors are detected and never miscorrected. -/
theorem bch_fix_triple_error (w e : Nat) (_hw : w < 2 ^ 32) (hs : bch_syndrome w = 0)
    (he : e < 2 ^ 32) (h3 : popcount32 e = 3) :
    bch_fix (w ^^^ e) = w ^^^ e ∧ bch_syndrome (w ^^^ e) ≠ 0 := by
  obtain ⟨x, y, z, hx, hy, hz, hxy, hxz, hyz, rfl⟩ := popcount32_three e he h3
  exact bch_fix_three w x y z hs hx hy hz hxy hxz hyz

theorem bch_fix_triple_error_witness :
    bch_fix (0x7cd215d8 ^^^ 0x80000101) = 0x7cd215d8 ^^^ 0x80000101 ∧
    bch_syndrome (0x7cd215d8 ^^^ 0x80000101) ≠ 0 :=
  bch_fix_triple_error 0x7cd215d8 0x80000101 (by decide) (by decide) (by decide) (by decide)

/-! ## The text assembler over a sequence of fragments -/

theorem pocsag_txt_store_length (buf : List Nat) (idx : Int) (v : Nat) :
    (pocsag_txt_store buf idx v).length = buf.length := by
  unfold pocsag_txt_store
  split_ifs <;> simp

theorem pocsag_txt_store_same (buf : List Nat) (c v : Nat) (hc : c < 256)
    (hl : buf.length = 256) : (pocsag_txt_store buf (c : Int) v)[c]? = some v := by
  unfold pocsag_txt_store POCSAG_TXT_LEN
  rw [if_pos ⟨by omega, by omega⟩, Int.toNat_ofNat, List.getElem?_set_self (by omega)]

theorem pocsag_txt_store_other (buf : List Nat) (c k v : Nat) (hk : k ≠ c) :
    (pocsag_txt_store buf (c : Int) v)[k]? = buf[k]? := by
  unfold pocsag_txt_store
  split_ifs
  · rw [Int.toNat_ofNat, List.getElem?_set_ne (Ne.symm hk)]
  · rfl

theorem shift_and_eq (B a : Nat) : (B >>> a) &&& 0x7f = (B % 2 ^ (a + 7)) / 2 ^ a := by
  have h : (0x7f : Nat) = 2 ^ 7 - 1 := by decide
  rw [h, Nat.and_pow_two_sub_one_eq_mod, Nat.shiftRight_eq_div_pow, pow_add,
    Nat.mod_mul_right_div_self]

/-- The character loop establishes the invariant with fewer than 7 bits pending. -/
theorem pocsag_txt_feed_loop_inv (N V : Nat) (hN : N / 7 ≤ 256) : ∀ (fuel : Nat)
    (q : pocsag_txt) (r c : Nat), txt_inv N V q r c → r ≤ fuel →
    txt_inv N V (pocsag_txt_feed_loop fuel q) (N % 7) (N / 7) := by
  intro fuel
  induction fuel with
  | zero =>
    intro q r c h hr
    obtain ⟨h1, h2, h3, h4, h5, h6, h7⟩ := h
    have hr0 : r = 0 := by omega
    subst hr0
    have e1 : N % 7 = 0 := by omega
    have e2 : N / 7 = c := by omega
    rw [e1, e2]
    exact ⟨h1, h2, h3, h4, h5, h6, h7⟩
  | succ fuel ih =>
    intro q r c h hr
    obtain ⟨h1, h2, h3, h4, h5, h6, h7⟩ := h
    by_cases hge : 7 ≤ r
    · rw [pocsag_txt_feed_loop_step fuel q (by rw [h1]; omega)]
      apply ih _ (r - 7) (c + 1) _ (by omega)
      have hsub : q.nb - 7 = ((r - 7 : Nat) : Int) := by rw [h1]; omega
      have htn : (q.nb - 7).toNat = r - 7 := by rw [hsub, Int.toNat_ofNat]
      have hc256 : c < 256 := by omega
      refine ⟨hsub, by simp only []; rw [h2]; push_cast; ring, by omega, by omega, ?_, ?_, ?_⟩
      · show q.bits % 2 ^ (r - 7) = V % 2 ^ (r - 7)
        have hd : 2 ^ (r - 7) ∣ 2 ^ r := pow_dvd_pow 2 (by omega)
        rw [← Nat.mod_mod_of_dvd q.bits hd, ← Nat.mod_mod_of_dvd V hd, h5]
      · show (pocsag_txt_store q.buf q.nc _).length = 256
        rw [pocsag_txt_store_length, h6]
      · intro k hk
        show (pocsag_txt_store q.buf q.nc _)[k]? = _
        rw [h2, htn]
        by_cases hkc : k = c
        · subst hkc
          rw [pocsag_txt_store_same _ _ _ hc256 h6]
          have hlt : (q.bits >>> (r - 7)) &&& 0x7f < 128 :=
            Nat.and_lt_two_pow _ (by decide : 127 < 2 ^ 7)
          rw [pocsag_txt_rev_eq_bitrev7 _ hlt, shift_and_eq]
          have e1 : r - 7 + 7 = r := by omega
          have e2 : N - 7 * (k + 1) = r - 7 := by omega
          have e3 : (128 : Nat) = 2 ^ 7 := by decide
          rw [e1, h5, e2, e3, ← Nat.mod_mul_right_div_self, ← pow_add, e1]
        · rw [pocsag_txt_store_other _ _ _ _ hkc]
          exact h7 k (by omega)
    · rw [pocsag_txt_feed_loop_stop _ q (by rw [h1]; omega)]
      have e1 : N % 7 = r := by omega
      have e2 : N / 7 = c := by omega
      rw [e1, e2]
      exact ⟨h1, h2, h3, h4, h5, h6, h7⟩

theorem shift20_or_eq (B d : Nat) (hd : d < 2 ^ 20) :
    ((B <<< 20) % 2 ^ 32) ||| d = 2 ^ 20 * (B % 2 ^ 12) + d := by
  have h : (B <<< 20) % 2 ^ 32 = 2 ^ 20 * (B % 2 ^ 12) := by
    rw [Nat.shiftLeft_eq]; omega
  rw [h, ← Nat.mul_add_lt_is_or hd]

theorem mod_shift20 (x d r : Nat) (hd : d < 2 ^ 20) :
    (2 ^ 20 * x + d) % 2 ^ (20 + r) = 2 ^ 20 * (x % 2 ^ r) + d := by
  have h1 : (2 ^ 20 * x + d) % 2 ^ 20 = d := by omega
  have h2 : (2 ^ 20 * x + d) / 2 ^ 20 = x := by omega
  rw [pow_add, Nat.mod_mul, h1, h2]
  omega

/-- One call of `pocsag_txt_feed` extends the invariant by 20 bits. -/
theorem pocsag_txt_feed_inv (n V d : Nat) (pt : pocsag_txt) (hd : d < 2 ^ 20)
    (hcap : 20 * (n + 1) / 7 ≤ 256)
    (h : txt_inv (20 * n) V pt (20 * n % 7) (20 * n / 7)) :
    txt_inv (20 * (n + 1)) (V * 2 ^ 20 + d) (pocsag_txt_feed pt d)
      (20 * (n + 1) % 7) (20 * (n + 1) / 7) := by
  obtain ⟨h1, h2, h3, h4, h5, h6, h7⟩ := h
  unfold pocsag_txt_feed
  simp only []
  have hnb : pt.nb + 20 = ((20 * n % 7 + 20 : Nat) : Int) := by rw [h1]; push_cast; ring
  rw [hnb, Int.toNat_ofNat]
  apply pocsag_txt_feed_loop_inv _ _ hcap _ _ (20 * n % 7 + 20) (20 * n / 7) _ (le_refl _)
  refine ⟨rfl, h2, by omega, by omega, ?_, h6, ?_⟩
  · show (((pt.bits <<< 20) % 2 ^ 32) ||| d) % 2 ^ (20 * n % 7 + 20)
      = (V * 2 ^ 20 + d) % 2 ^ (20 * n % 7 + 20)
    have hr12 : 2 ^ (20 * n % 7) ∣ 2 ^ 12 := pow_dvd_pow 2 (by omega)
    rw [shift20_or_eq _ _ hd, Nat.add_comm (20 * n % 7) 20, mod_shift20 _ _ _ hd,
      Nat.mul_comm V (2 ^ 20), mod_shift20 _ _ _ hd, Nat.mod_mod_of_dvd _ hr12, h5]
  · intro k hk
    show pt.buf[k]? = _
    rw [h7 k hk]
    have e1 : 20 * (n + 1) - 7 * (k + 1) = 20 + (20 * n - 7 * (k + 1)) := by omega
    have e2 : (V * 2 ^ 20 + d) / 2 ^ 20 = V := by omega
    rw [e1, pow_add, ← Nat.div_div_eq_div_mul, e2]

theorem pocsag_txt_init_inv : txt_inv 0 0 pocsag_txt_init 0 0 := by
  unfold txt_inv pocsag_txt_init POCSAG_TXT_LEN
  refine ⟨rfl, rfl, rfl, by decide, rfl, List.length_replicate _ _, ?_⟩
  intro k hk
  omega

theorem pocsag_txt_feed_list_inv (ds : List Nat) : ∀ (n V : Nat) (pt : pocsag_txt),
    (∀ d ∈ ds, d < 2 ^ 20) → 20 * (n + ds.length) / 7 ≤ 256 →
    txt_inv (20 * n) V pt (20 * n % 7) (20 * n / 7) →
    txt_inv (20 * (n + ds.length)) (ds.foldl (fun v d => v * 2 ^ 20 + d) V)
      (ds.foldl pocsag_txt_feed pt) (20 * (n + ds.length) % 7) (20 * (n + ds.length) / 7) := by
  induction ds with
  | nil => intro n V pt _ _ h; simpa using h
  | cons d ds ih =>
    intro n V pt hd hcap h
    simp only [List.length_cons] at hcap ⊢
    have e : n + (ds.length + 1) = (n + 1) + ds.length := by omega
    rw [e] at hcap ⊢
    rw [List.foldl_cons, List.foldl_cons]
    exact ih (n + 1) _ _ (fun d' hd' => hd d' (List.mem_cons_of_mem _ hd')) hcap
      (pocsag_txt_feed_inv n V d pt (hd d (List.mem_cons_self _ _)) (by omega) h)

/-- C12: feeding `n` fragments (each below `2^20`, with `⌊20n/7⌋ ≤ 256`) to a freshly
initialised text assembler leaves `nc = ⌊20n/7⌋` stored characters and `nb = 20n mod 7 < 7`
pending bits, and the `k`-th stored byte is the 7-bit reversal of bits `7k .. 7k+6` of the
concatenated fragments: no pending bit is lost across fragments. -/
theorem pocsag_txt_feed_stream (ds : List Nat) (hd : ∀ d ∈ ds, d < 2 ^ 20)
    (hcap : 20 * ds.length / 7 ≤ 256) :
    (ds.foldl pocsag_txt_feed pocsag_txt_init).nc = ((20 * ds.length / 7 : Nat) : Int) ∧
    (ds.foldl pocsag_txt_feed pocsag_txt_init).nb = ((20 * ds.length % 7 : Nat) : Int) ∧
    (ds.foldl pocsag_txt_feed pocsag_txt_init).nb < 7 ∧
    ∀ k, k < 20 * ds.length / 7 →
      (ds.foldl pocsag_txt_feed pocsag_txt_init).buf[k]? = some (bitrev7 (stream_group ds k)) := by
  have h := pocsag_txt_feed_list_inv ds 0 0 pocsag_txt_init hd (by simpa using hcap)
    (by simpa using pocsag_txt_init_inv)
  simp only [Nat.zero_add] at h
  obtain ⟨h1, h2, _, _, _, _, h7⟩ := h
  refine ⟨h2, h1, by rw [h1]; omega, ?_⟩
  intro k hk
  rw [h7 k hk]
  rfl

theorem pocsag_txt_feed_stream_witness :
    ([0x132c0, 0x0f9a4].foldl pocsag_txt_feed pocsag_txt_init).nc = ((20 * 2 / 7 : Nat) : Int) ∧
    ([0x132c0, 0x0f9a4].foldl pocsag_txt_feed pocsag_txt_init).nb = ((20 * 2 % 7 : Nat) : Int) ∧
    ([0x132c0, 0x0f9a4].foldl pocsag_txt_feed pocsag_txt_init).nb < 7 ∧
    ∀ k, k < 20 * 2 / 7 →
      ([0x132c0, 0x0f9a4].foldl pocsag_txt_feed pocsag_txt_init).buf[k]?
        = some (bitrev7 (stream_group [0x132c0, 0x0f9a4] k)) :=
  pocsag_txt_feed_stream [0x132c0, 0x0f9a4] (by decide) (by decide)

/-- C13, evaluation of the code: after 89 fragments a fresh text assembler holds 254
characters; the 90th call of `pocsag_txt_feed` stores three more characters, at the
indices 254, 255 and 256 of the 256-byte array, and leaves `nc = 257`. -/
theorem pocsag_txt_feed_overflow :
    ((List.replicate 89 0).foldl pocsag_txt_feed pocsag_txt_init).nc = 254 ∧
    ((List.replicate 89 0).foldl pocsag_txt_feed pocsag_txt_init).nb + 20 = 22 ∧
    ((List.replicate 90 0).foldl pocsag_txt_feed pocsag_txt_init).nc = 257 := by decide!

/-- Clean codewords fed to a synced decoder at a codeword boundary are consumed word by
word. -/
theorem pocsag_run_clean_words (ws : List Nat) : ∀ ps : pocsag, 1 ≤ ps.sync →
    ps.cw_bits = 0 → (∀ w ∈ ws, w < 2 ^ 32 ∧ bch_syndrome w = 0) →
    pocsag_run ps (ws.flatMap word_bits) = ws.foldl pocsag_rx_word ps := by
  induction ws with
  | nil => intro ps _ _ _; rfl
  | cons w ws ih =>
    intro ps hs hcb hws
    have hw := hws w (List.mem_cons_self _ _)
    rw [List.flatMap_cons, pocsag_run_append, pocsag_run_word_bits w hw.1 ps (by omega) hcb,
      List.foldl_cons]
    apply ih
    · show 1 ≤ (pocsag_rx_cw { ps with cw := w, b := ps.b + 32, cw_bits := 0 }).sync
      rw [pocsag_rx_cw_sync]
      simp only []
      rw [if_neg (by rw [final_syndrome_clean w hw.2]; simp)]
      split_ifs <;> omega
    · show (pocsag_rx_cw { ps with cw := w, b := ps.b + 32, cw_bits := 0 }).cw_bits = 0
      rw [pocsag_rx_cw_cw_bits]
    · exact fun w' hw' => hws w' (List.mem_cons_of_mem _ hw')

theorem overflow_words_clean : ∀ w ∈ overflow_words, w < 2 ^ 32 ∧ bch_syndrome w = 0 := by
  decide!

theorem overflow_words_fold :
    (overflow_words.foldl pocsag_rx_word
      { b := 32, sync := 10, cw := 0, cw_bits := 0, cw_num := 0, txt_active := 0,
        txt := pocsag_txt_init }).txt.nc = 257 := by decide!

/-- C13, evaluation of the decoder: the bit stream of the sync word followed by the clean
codewords `overflow_words` (3104 bits) drives `pocsag_rx_bit` from `pocsag_init` to a
state with `txt.nc = 257`: the call of `pocsag_txt_feed` for the 90th message codeword
stores a character at index 256 of the 256-byte array. -/
theorem pocsag_rx_bit_overflow :
    (pocsag_run pocsag_init
      (word_bits POCSAG_SYNC ++ overflow_words.flatMap word_bits)).txt.nc = 257 := by
  rw [pocsag_run_append, pocsag_run_sync_word,
    pocsag_run_clean_words overflow_words _ (by decide) rfl overflow_words_clean]
  exact overflow_words_fold

/-! ## Runs on which the behaviour of the C program is defined -/

theorem pocsag_txt_store_in_range (buf : List Nat) (idx : Int) (v : Nat)
    (h : 0 ≤ idx ∧ idx < POCSAG_TXT_LEN) :
    pocsag_txt_store buf idx v = buf.set idx.toNat v := by
  unfold pocsag_txt_store
  rw [if_pos h]

/-- Where the checked loop is defined, the loop of the total model ends in the same state,
and the character count stays within the array. -/
theorem pocsag_txt_feed_loop_checked_some : ∀ (fuel : Nat) (pt q : pocsag_txt),
    pocsag_txt_feed_loop_checked fuel pt = some q →
    q = pocsag_txt_feed_loop fuel pt ∧ (pt.nc ≤ 256 → q.nc ≤ 256) := by
  intro fuel
  induction fuel with
  | zero =>
    intro pt q h
    simp only [pocsag_txt_feed_loop_checked, Option.some.injEq] at h
    subst h
    exact ⟨rfl, fun h => h⟩
  | succ fuel ih =>
    intro pt q h
    rw [pocsag_txt_feed_loop_checked] at h
    by_cases hnb : pt.nb ≥ 7
    · rw [if_pos hnb] at h
      by_cases hr : 0 ≤ pt.nc ∧ pt.nc < POCSAG_TXT_LEN
      · rw [if_pos hr] at h
        obtain ⟨h1, h2⟩ := ih _ q h
        rw [pocsag_txt_feed_loop_step fuel pt hnb, pocsag_txt_store_in_range _ _ _ hr]
        refine ⟨h1, fun _ => h2 ?_⟩
        show pt.nc + 1 ≤ 256
        have := hr.2
        unfold POCSAG_TXT_LEN at this
        omega
      · rw [if_neg hr] at h
        exact absurd h (by simp)
    · rw [if_neg hnb] at h
      simp only [Option.some.injEq] at h
      subst h
      rw [pocsag_txt_feed_loop_stop _ _ (by omega)]
      exact ⟨rfl, fun h => h⟩

theorem pocsag_txt_feed_checked_some (pt q : pocsag_txt) (d : Nat)
    (h : pocsag_txt_feed_checked pt d = some q) :
    q = pocsag_txt_feed pt d ∧ (pt.nc ≤ 256 → q.nc ≤ 256) := by
  unfold pocsag_txt_feed_checked at h
  unfold pocsag_txt_feed
  exact pocsag_txt_feed_loop_checked_some _ _ q h

theorem option_some_eq {α : Type} {a b : α} (h : some a = some b) : b = a := by
  simp only [Option.some.injEq] at h
  exact h.symm

theorem pocsag_feed_map_some (ps s : pocsag) (d : Nat)
    (h : (pocsag_txt_feed_checked ps.txt d).map (fun t => { ps with txt := t }) = some s) :
    s = { ps with txt := pocsag_txt_feed ps.txt d } ∧ (ps.txt.nc ≤ 256 → s.txt.nc ≤ 256) := by
  simp only [Option.map_eq_some'] at h
  obtain ⟨t, ht, rfl⟩ := h
  obtain ⟨h1, h2⟩ := pocsag_txt_feed_checked_some _ _ _ ht
  exact ⟨by rw [h1], fun hn => h2 hn⟩

theorem pocsag_rx_classify_checked_some (ps s : pocsag) (cw syn : Nat)
    (h : pocsag_rx_classify_checked ps cw syn = some s) :
    s = pocsag_rx_classify ps cw syn ∧ (ps.txt.nc ≤ 256 → s.txt.nc ≤ 256) := by
  unfold pocsag_rx_classify_checked at h
  unfold pocsag_rx_classify
  by_cases h1 : cw = POCSAG_IDLE
  · rw [if_pos h1] at h ⊢
    by_cases hz : syn = 0
    · rw [if_pos hz] at h ⊢
      rw [option_some_eq h]
      exact ⟨rfl, fun hn => hn⟩
    · rw [if_neg hz] at h ⊢
      rw [option_some_eq h]
      exact ⟨rfl, fun hn => hn⟩
  · rw [if_neg h1] at h ⊢
    by_cases h2 : cw = POCSAG_SYNC
    · rw [if_pos h2] at h ⊢
      rw [option_some_eq h]
      exact ⟨rfl, fun hn => hn⟩
    · rw [if_neg h2] at h ⊢
      by_cases h3 : cw &&& (1 <<< 31) ≠ 0
      · rw [if_pos h3] at h ⊢
        simp only [] at h ⊢
        by_cases ha : ps.txt_active ≠ 0
        · rw [if_pos ha] at h ⊢
          exact pocsag_feed_map_some ps s _ h
        · rw [if_neg ha] at h ⊢
          rw [option_some_eq h]
          exact ⟨rfl, fun hn => hn⟩
      · rw [if_neg h3] at h ⊢
        by_cases hz : syn = 0
        · rw [if_pos hz] at h ⊢
          rw [option_some_eq h]
          exact ⟨rfl, fun _ => by show pocsag_txt_init.nc ≤ 256; decide⟩
        · rw [if_neg hz] at h ⊢
          by_cases ha : ps.txt_active ≠ 0
          · rw [if_pos ha] at h ⊢
            exact pocsag_feed_map_some ps s _ h
          · rw [if_neg ha] at h ⊢
            rw [option_some_eq h]
            exact ⟨rfl, fun hn => hn⟩

theorem pocsag_rx_track_checked_some (ps s : pocsag) (cw syn : Nat)
    (h : pocsag_rx_track_checked ps cw syn = some s) :
    s = pocsag_rx_track ps cw syn ∧ (ps.txt.nc ≤ 256 → s.txt.nc ≤ 256) := by
  unfold pocsag_rx_track_checked at h
  unfold pocsag_rx_track
  by_cases hl : syn ≠ 0 ∧ ps.sync - SYNC_DEC ≤ 0
  · rw [if_pos hl] at h ⊢
    rw [option_some_eq h]
    exact ⟨rfl, fun hn => hn⟩
  · rw [if_neg hl] at h ⊢
    simp only [] at h ⊢
    generalize hq : (if syn ≠ 0 then { ps with sync := ps.sync - SYNC_DEC }
      else if ps.sync + SYNC_INC > SYNC_MAX then { ps with sync := SYNC_MAX }
      else { ps with sync := ps.sync + SYNC_INC } : pocsag) = q at h ⊢
    have hqt : q.txt = ps.txt := by
      rw [← hq]; split_ifs <;> rfl
    by_cases hn : q.cw_num = -1
    · rw [if_pos hn] at h ⊢
      rw [option_some_eq h]
      exact ⟨rfl, fun hc => by show q.txt.nc ≤ 256; rw [hqt]; exact hc⟩
    · rw [if_neg hn] at h ⊢
      simp only [Option.map_eq_some'] at h
      obtain ⟨t, ht, rfl⟩ := h
      obtain ⟨h1, h2⟩ := pocsag_rx_classify_checked_some _ _ _ _ ht
      rw [← h1]
      refine ⟨rfl, fun hc => ?_⟩
      have h3 := h2 (by rw [hqt]; exact hc)
      split_ifs <;> exact h3

theorem pocsag_rx_cw_checked_some (ps s : pocsag) (h : pocsag_rx_cw_checked ps = some s) :
    s = pocsag_rx_cw ps ∧ (ps.txt.nc ≤ 256 → s.txt.nc ≤ 256) := by
  unfold pocsag_rx_cw_checked at h
  unfold pocsag_rx_cw
  simp only [] at h ⊢
  split_ifs at h ⊢ <;> exact pocsag_rx_track_checked_some _ _ _ _ h

theorem pocsag_rx_bit_checked_some (ps s : pocsag) (bit : Nat)
    (h : pocsag_rx_bit_checked ps bit = some s) :
    s = pocsag_rx_bit ps bit ∧ (ps.txt.nc ≤ 256 → s.txt.nc ≤ 256) := by
  unfold pocsag_rx_bit_checked at h
  unfold pocsag_rx_bit
  simp only [] at h ⊢
  split_ifs at h ⊢
  all_goals first
    | (simp only [Option.some.injEq] at h
       subst h
       exact ⟨rfl, fun hn => hn⟩)
    | exact pocsag_rx_cw_checked_some _ _ h

/-- A defined run ends in the state the total model computes, with the character count
within the array. -/
theorem pocsag_run_checked_some (bits : List Nat) : ∀ ps s : pocsag,
    pocsag_run_checked ps bits = some s →
    s = pocsag_run ps bits ∧ (ps.txt.nc ≤ 256 → s.txt.nc ≤ 256) := by
  induction bits with
  | nil =>
    intro ps s h
    simp only [pocsag_run_checked, Option.some.injEq] at h
    subst h
    exact ⟨rfl, fun hn => hn⟩
  | cons bit bits ih =>
    intro ps s h
    rw [pocsag_run_checked] at h
    cases hb : pocsag_rx_bit_checked ps bit with
    | none => rw [hb] at h; exact absurd h (by simp)
    | some ps' =>
      rw [hb] at h
      obtain ⟨h1, h2⟩ := pocsag_rx_bit_checked_some ps ps' bit hb
      obtain ⟨h3, h4⟩ := ih ps' s h
      rw [pocsag_run_cons, ← h1]
      exact ⟨h3, fun hn => h4 (h2 hn)⟩

/-- The overflow stream leaves the defined behaviour of the C program: the checked run
stops at the store outside `buf`. -/
theorem pocsag_run_checked_overflow :
    pocsag_run_checked pocsag_init
      (word_bits POCSAG_SYNC ++ overflow_words.flatMap word_bits) = none := by
  cases h : pocsag_run_checked pocsag_init
      (word_bits POCSAG_SYNC ++ overflow_words.flatMap word_bits) with
  | none => rfl
  | some s =>
    exfalso
    obtain ⟨h1, h2⟩ := pocsag_run_checked_some _ _ _ h
    have hnc := h2 (by decide)
    rw [h1, pocsag_rx_bit_overflow] at hnc
    exact absurd hnc (by decide)

/-! ## Invariants of the runs within defined behaviour -/

/-- C6: in every decoder state reached from `pocsag_init` by feeding a sequence of bits to
`pocsag_rx_bit`, in a run in which no store of the text assembler falls outside `buf` (a
run past such a store has no defined state in C), the sync confidence counter satisfies
`0 ≤ sync ≤ 10`. -/
theorem pocsag_sync_bounds (bits : List Nat) (s : pocsag)
    (h : pocsag_run_checked pocsag_init bits = some s) : 0 ≤ s.sync ∧ s.sync ≤ 10 := by
  rw [(pocsag_run_checked_some bits pocsag_init s h).1]
  exact pocsag_run_sync_range bits pocsag_init (by decide)

set_option maxRecDepth 100000 in
theorem pocsag_sync_bounds_witness :
    pocsag_run_checked pocsag_init
        (word_bits POCSAG_SYNC ++ word_bits 0 ++ word_bits 0x899605e0) =
      some { b := 96, sync := 10, cw := 0x899605e0, cw_bits := 0, cw_num := 2,
             txt_active := 1,
             txt := { bits := 0x132c0, nb := 6, nc := 2,
                      buf := 0x48 :: 0x69 :: List.replicate 254 0 } } ∧
    (0 : Int) ≤ 10 ∧ (10 : Int) ≤ 10 :=
  ⟨by decide!,
   pocsag_sync_bounds (word_bits POCSAG_SYNC ++ word_bits 0 ++ word_bits 0x899605e0)
     { b := 96, sync := 10, cw := 0x899605e0, cw_bits := 0, cw_num := 2, txt_active := 1,
       txt := { bits := 0x132c0, nb := 6, nc := 2,
                buf := 0x48 :: 0x69 :: List.replicate 254 0 } } (by decide!)⟩

/-- C18: in every state reached from `pocsag_init`, in a run in which no store of the text
assembler falls outside `buf`, the batch position `cw_num` lies in `-1 .. 15`; a codeword
consumed by a synced decoder without loss of sync moves it from `-1` to `0`, from `p` to
`p + 1` for `0 ≤ p < 15`, and from `15` back to `-1`; starting at position `0` the
sentinel `-1` is reached after exactly 16 such steps. -/
theorem pocsag_cw_num_cycle :
    (∀ (bits : List Nat) (s : pocsag), pocsag_run_checked pocsag_init bits = some s →
      -1 ≤ s.cw_num ∧ s.cw_num ≤ 15) ∧
    (∀ (ps : pocsag) (bit : Nat), ps.sync ≠ 0 → ps.cw_bits = 31 →
      -1 ≤ ps.cw_num → ps.cw_num ≤ 15 → (pocsag_rx_bit ps bit).sync ≠ 0 →
      (pocsag_rx_bit ps bit).cw_num = cw_num_next ps.cw_num) ∧
    (∀ k, k ≤ 16 → (Nat.iterate cw_num_next k 0 = -1 ↔ k = 16)) := by
  refine ⟨?_, ?_, by decide⟩
  · intro bits s h
    rw [(pocsag_run_checked_some bits pocsag_init s h).1]
    exact pocsag_run_cw_num_range bits pocsag_init (by decide)
  · intro ps bit hs hcb h1 h2 hns
    rw [pocsag_rx_bit_codeword ps bit hs hcb] at hns ⊢
    rw [pocsag_rx_track_cw_num]
    rw [pocsag_rx_track_sync] at hns
    unfold cw_num_next
    simp only [] at hns ⊢
    split_ifs at hns ⊢ <;> omega

set_option maxRecDepth 100000 in
theorem pocsag_cw_num_cycle_witness :
    (pocsag_run_checked pocsag_init (word_bits POCSAG_SYNC ++ word_bits 0) =
        some { b := 64, sync := 10, cw := 0, cw_bits := 0, cw_num := 1, txt_active := 1,
               txt := pocsag_txt_init } ∧
      (-1 : Int) ≤ 1 ∧ (1 : Int) ≤ 15) ∧
    (pocsag_rx_bit { pocsag_init with sync := 10, cw_bits := 31, cw_num := 15 } 0).cw_num
      = cw_num_next 15 :=
  ⟨⟨by decide!,
    pocsag_cw_num_cycle.1 (word_bits POCSAG_SYNC ++ word_bits 0)
      { b := 64, sync := 10, cw := 0, cw_bits := 0, cw_num := 1, txt_active := 1,
        txt := pocsag_txt_init } (by decide!)⟩,
   pocsag_cw_num_cycle.2.1 { pocsag_init with sync := 10, cw_bits := 31, cw_num := 15 } 0
     (by decide) (by decide) (by decide) (by decide) (by decide!)⟩
